import Mathlib

/-!
# Verification of the MazeVisualization core (src/app.py)

Shallow embedding of the maze generator (`MazeGenerator` in src/app.py):

* The numpy grid `self.maze` (floats `1.0` = wall, `0.0` = open) is embedded
  as the finite set of its open `(row, col)` coordinates, together with the
  fixed shape `(2*height+1, 2*width+1)`.  A numpy element write
  `maze[y, x] = 0` is embedded as a bounds-checked insertion (`setCell`);
  an out-of-range index is the numpy `IndexError` (`GenErr.idxErr`).
* `random.shuffle(directions)` (one call per `_dfs` invocation) is embedded
  by an explicit oracle `rng : Nat -> List Pos` consumed in call order; the
  theorems assume each `rng n` is a permutation of the direction list, which
  is exactly the set of possible shuffle outcomes.  `random.sample` is
  embedded by an oracle `sample` assumed to return a subpermutation of its
  input of the prescribed length (`SampleSpec`).
* The recursive `_dfs` and the `while frontier` loop of `_astar` are embedded
  with an explicit fuel parameter (`GenErr.fuelOut` / `none` on exhaustion);
  fuel sufficiency for `_dfs` is proved separately.
* Python's `heapq` pops the lexicographically least `(priority, (y, x))`
  tuple of the heap's multiset of entries; `popMin` implements exactly this
  multiset-minimum pop on a list that receives pushes by consing.
-/

/-- A grid coordinate.  The grid is addressed as `(row, col)`; `_dfs`
additionally manipulates `(x, y)` pairs exactly as the source does. -/
abbrev Pos : Type := ℤ × ℤ

/-- `self.start = (1, 0)` — the fixed start position (row 1, column 0). -/
def startPos : Pos := (1, 0)

/-- The grid: shape `(rows, cols)` plus the set of open cells.
`(y, x) ∈ openCells` embeds `self.maze[y, x] == 0`. -/
structure Grid where
  rows : ℤ
  cols : ℤ
  openCells : Finset Pos
deriving DecidableEq

/-- `_heuristic(a, b) = abs(a[0]-b[0]) + abs(a[1]-b[1])` (Manhattan). -/
def heuristic (a b : Pos) : ℤ := |a.1 - b.1| + |a.2 - b.2|

/-- `directions = [(0, 1), (1, 0), (0, -1), (-1, 0)]` in `_get_neighbors`
(each entry is `(dy, dx)`). -/
def neighborDirs : List Pos := [(0, 1), (1, 0), (0, -1), (-1, 0)]

/-- `_get_neighbors(pos)`: the in-bounds open 4-neighbours of `pos`,
in source order. -/
def getNeighbors (g : Grid) (pos : Pos) : List Pos :=
  neighborDirs.filterMap (fun d =>
    let ny := pos.1 + d.1
    let nx := pos.2 + d.2
    if 0 ≤ ny ∧ ny < g.rows ∧ 0 ≤ nx ∧ nx < g.cols ∧ (ny, nx) ∈ g.openCells
    then some (ny, nx) else none)

/-- A frontier entry `(priority, position)` as pushed by `heappush`. -/
abbrev Entry : Type := ℤ × Pos

/-- Python's lexicographic comparison on `(priority, (y, x))` tuples,
which drives the `heapq` pop order. -/
def entryLe (a b : Entry) : Prop :=
  a.1 < b.1 ∨ (a.1 = b.1 ∧ (a.2.1 < b.2.1 ∨ (a.2.1 = b.2.1 ∧ a.2.2 ≤ b.2.2)))

instance (a b : Entry) : Decidable (entryLe a b) := by
  unfold entryLe; infer_instance

/-- `heappop`: remove and return the least entry of the frontier multiset
(the value popped by a binary heap is the multiset minimum). -/
def popMin : List Entry → Option (Entry × List Entry)
  | [] => none
  | e :: rest =>
    match popMin rest with
    | none => some (e, [])
    | some (m, r) => if entryLe e m then some (e, rest) else some (m, e :: r)

/-- Lookup in a Python dict embedded as a cons-overwriting association list
(the most recent binding wins, like dict assignment). -/
def alookup {β : Type} : List (Pos × β) → Pos → Option β
  | [], _ => none
  | (k, v) :: rest, q => if q = k then some v else alookup rest q

/-- The mutable state of `_astar`'s main loop: `frontier`, `came_from`,
`cost_so_far`. -/
structure AState where
  frontier : List Entry
  cameFrom : List (Pos × Option Pos)
  costSoFar : List (Pos × ℤ)

/-- The body of the `for next_pos in self._get_neighbors(current)` loop:
relax one neighbour, possibly updating `cost_so_far`, pushing a frontier
entry and recording the predecessor. -/
def relax (goal current : Pos) (st : AState) (nextPos : Pos) : AState :=
  let newCost := (alookup st.costSoFar current).getD 0 + 1
  let better :=
    match alookup st.costSoFar nextPos with
    | none => true
    | some c => decide (newCost < c)
  if better then
    { frontier := (newCost + heuristic goal nextPos, nextPos) :: st.frontier
      cameFrom := (nextPos, some current) :: st.cameFrom
      costSoFar := (nextPos, newCost) :: st.costSoFar }
  else st

/-- The `while frontier:` loop of `_astar`, with fuel.  Pops the least
entry; on reaching the goal it breaks (returning the current state),
otherwise it relaxes the popped cell's neighbours and continues. -/
def astarLoop (g : Grid) (goal : Pos) : ℕ → AState → Option AState
  | 0, _ => none
  | fuel + 1, st =>
    match popMin st.frontier with
    | none => some st
    | some (e, rest) =>
      if e.2 = goal then some st
      else astarLoop g goal fuel
        ((getNeighbors g e.2).foldl (relax goal e.2) { st with frontier := rest })

/-- Path reconstruction: `while current is not None: path.append(current);
current = came_from[current]` followed by `path.reverse()`.  The
accumulator already produces the reversed (start-first) list.  Fuel covers
the predecessor chain; `none` on a missing key models a `KeyError`. -/
def reconstructPath (cf : List (Pos × Option Pos)) : ℕ → Pos → List Pos → Option (List Pos)
  | 0, _, _ => none
  | fuel + 1, cur, acc =>
    match alookup cf cur with
    | none => none
    | some none => some (cur :: acc)
    | some (some p) => reconstructPath cf fuel p (cur :: acc)

/-- `_astar(start, goal)`: run the loop from the initial state
`frontier = [(0, start)]`, `came_from = {start: None}`,
`cost_so_far = {start: 0}`; if `goal not in came_from` return `None`,
otherwise reconstruct the path.  The reconstruction fuel
`cost_so_far[goal] + 1` is proved sufficient separately. -/
def astar (g : Grid) (fuel : ℕ) (start goal : Pos) : Option (List Pos) :=
  match astarLoop g goal fuel ⟨[(0, start)], [(start, none)], [(start, 0)]⟩ with
  | none => none
  | some st =>
    match alookup st.cameFrom goal with
    | none => none
    | some _ =>
      reconstructPath st.cameFrom (((alookup st.costSoFar goal).getD 0).toNat + 1) goal []

/-- `find_all_paths`: `self.paths = []`, then for each exit in order append
the A* path if one was found (a `None` result is only logged, not stored). -/
def findAllPathsList (g : Grid) (fuel : ℕ) (exits : List Pos) : List (List Pos) :=
  exits.foldl (fun acc e =>
    match astar g fuel startPos e with
    | some p => acc ++ [p]
    | none => acc) []

/-- The instance state read and written by `find_all_paths`:
`self.maze`, `self.exits`, `self.paths`. -/
structure SearchState where
  grid : Grid
  exits : List Pos
  paths : List (List Pos)
deriving DecidableEq

/-- `find_all_paths` as a state transformer: it overwrites `self.paths`
with the freshly computed list. -/
def findAllPaths (fuel : ℕ) (st : SearchState) : SearchState :=
  { st with paths := findAllPathsList st.grid fuel st.exits }

/-! ## The carver (`_dfs`, `generate_maze`, `_generate_exits`) -/

/-- Errors of the embedded generator: fuel exhaustion (an artifact of the
embedding of unbounded recursion) and numpy `IndexError`. -/
inductive GenErr
  | fuelOut
  | idxErr
deriving DecidableEq

/-- The mutable state of generation: the open cells of `self.maze`, the
set `self.visited` (keyed `(x, y)` as in the source), and the position in
the random-shuffle stream. -/
structure GenState where
  grid : Finset Pos
  visited : Finset Pos
  rngIndex : ℕ
deriving DecidableEq

/-- `self.maze[p] = 0` as a bounds-checked write: `none` is numpy's
`IndexError` for an index outside `0 ≤ i < shape` (no write in this
program ever uses a negative, wrap-around index). -/
def setCell (rows cols : ℤ) (g : Finset Pos) (p : Pos) : Option (Finset Pos) :=
  if 0 ≤ p.1 ∧ p.1 < rows ∧ 0 ≤ p.2 ∧ p.2 < cols then some (insert p g) else none

/-- `directions = [(0, 2), (2, 0), (0, -2), (-2, 0)]` in `_dfs`
(each entry is `(dx, dy)`). -/
def dfsDirections : List Pos := [(0, 2), (2, 0), (0, -2), (-2, 0)]

/-- The `for dx, dy in directions:` loop of `_dfs`: for each direction in
the shuffled order, if the target room is strictly inside the boundary
ring and unvisited, carve the intermediate passage cell and recurse
(`step` is the recursive call at the next fuel level). -/
def goAux (step : ℤ → ℤ → GenState → Except GenErr GenState) (rows cols x y : ℤ) :
    List Pos → GenState → Except GenErr GenState
  | [], s => .ok s
  | d :: ds, s =>
    let nx := x + d.1
    let ny := y + d.2
    if 0 < nx ∧ nx < cols - 1 ∧ 0 < ny ∧ ny < rows - 1 ∧ (nx, ny) ∉ s.visited then
      match setCell rows cols s.grid (y + d.2 / 2, x + d.1 / 2) with
      | none => .error .idxErr
      | some g2 =>
        match step nx ny { s with grid := g2 } with
        | .error e => .error e
        | .ok s2 => goAux step rows cols x y ds s2
    else goAux step rows cols x y ds s

/-- `_dfs(x, y)`: mark `(x, y)` visited, open `maze[y, x]`, shuffle the
directions (one oracle draw) and run the direction loop. -/
def dfsF (rng : ℕ → List Pos) (rows cols : ℤ) :
    ℕ → ℤ → ℤ → GenState → Except GenErr GenState
  | 0, _, _, _ => .error .fuelOut
  | fuel + 1, x, y, s =>
    match setCell rows cols s.grid (y, x) with
    | none => .error .idxErr
    | some g1 =>
      goAux (dfsF rng rows cols fuel) rows cols x y (rng s.rngIndex)
        { grid := g1, visited := insert (x, y) s.visited, rngIndex := s.rngIndex + 1 }

/-- The left/right boundary scan of `_generate_exits`: for each odd row
`y` (in `range(1, rows-1, 2)` order), first the right edge — candidate
`(y, cols-1)` if `maze[y, -2] == 0` — then the left edge — candidate
`(y, 0)` if `maze[y, 1] == 0`. -/
def edgeScanLR (W H : ℕ) (g : Finset Pos) : List Pos :=
  (List.range H).flatMap (fun j =>
    let y : ℤ := 2 * (j : ℤ) + 1
    (if (y, 2 * (W : ℤ) - 1) ∈ g then [(y, 2 * (W : ℤ))] else []) ++
    (if (y, 1) ∈ g then [(y, 0)] else []))

/-- The top/bottom boundary scan of `_generate_exits`: for each odd column
`x`, first the bottom edge — candidate `(rows-1, x)` if `maze[-2, x] == 0`
— then the top edge — candidate `(0, x)` if `maze[1, x] == 0`. -/
def edgeScanTB (W H : ℕ) (g : Finset Pos) : List Pos :=
  (List.range W).flatMap (fun i =>
    let x : ℤ := 2 * (i : ℤ) + 1
    (if (2 * (H : ℤ) - 1, x) ∈ g then [(2 * (H : ℤ), x)] else []) ++
    (if ((1 : ℤ), x) ∈ g then [(0, x)] else []))

/-- `possible_exits` as collected by `_generate_exits` (row scan first,
then column scan, in source order). -/
def possibleExits (W H : ℕ) (g : Finset Pos) : List Pos :=
  edgeScanLR W H g ++ edgeScanTB W H g

/-- The exit-carving loop `for y, x in self.exits: self.maze[y, x] = 0`. -/
def carveCells (rows cols : ℤ) : List Pos → Finset Pos → Option (Finset Pos)
  | [], g => some g
  | p :: ps, g =>
    match setCell rows cols g p with
    | none => none
    | some g2 => carveCells rows cols ps g2

/-- `random.sample(pool, k)` returns `k` distinct elements of the pool in
some order: a length-`min` subpermutation.  Any conforming oracle is a
possible sampling outcome. -/
def SampleSpec (sample : List Pos → ℕ → List Pos) : Prop :=
  ∀ l k, List.Subperm (sample l k) l ∧ (sample l k).length = min k l.length

/-- The result of `generate_maze`: the finished grid and `self.exits`. -/
structure MazeOut where
  grid : Finset Pos
  exits : List Pos
deriving DecidableEq

/-- `generate_maze()`: `self.maze = np.ones((2*height+1, 2*width+1))` (all
walls), `self._dfs(1, 1)`, `self.maze[self.start] = 0` (entrance), then
`_generate_exits` (collect candidates, sample
`min(self.num_exits, len(possible_exits))` of them, carve them). -/
def generateMaze (W H numExits : ℕ) (rng : ℕ → List Pos)
    (sample : List Pos → ℕ → List Pos) (fuel : ℕ) : Except GenErr MazeOut :=
  let rows : ℤ := 2 * (H : ℤ) + 1
  let cols : ℤ := 2 * (W : ℤ) + 1
  match dfsF rng rows cols fuel 1 1 ⟨∅, ∅, 0⟩ with
  | .error e => .error e
  | .ok s =>
    match setCell rows cols s.grid (1, 0) with
    | none => .error .idxErr
    | some g1 =>
      let pool := possibleExits W H g1
      let chosen := sample pool (min numExits pool.length)
      match carveCells rows cols chosen g1 with
      | none => .error .idxErr
      | some g2 => .ok ⟨g2, chosen⟩

/-- The grid object handed to the pathfinder after generation. -/
def mazeGrid (W H : ℕ) (g : Finset Pos) : Grid :=
  ⟨2 * (H : ℤ) + 1, 2 * (W : ℤ) + 1, g⟩

/-! ## Cell classification -/

/-- A room cell: odd row and odd column (hence strictly inside the
boundary ring of a `(2H+1) × (2W+1)` grid). -/
def isRoomCell (W H : ℕ) (p : Pos) : Prop :=
  p.1 % 2 = 1 ∧ p.2 % 2 = 1 ∧
  0 < p.1 ∧ p.1 < 2 * (H : ℤ) + 1 ∧ 0 < p.2 ∧ p.2 < 2 * (W : ℤ) + 1

instance (W H : ℕ) (p : Pos) : Decidable (isRoomCell W H p) := by
  unfold isRoomCell; infer_instance

/-- A passage cell proper: a cell lying strictly between two adjacent
rooms — strictly inside the grid with exactly one odd coordinate
(boundary cells such as the entrance are not passages between rooms). -/
def isPassageCell (W H : ℕ) (p : Pos) : Prop :=
  0 < p.1 ∧ p.1 < 2 * (H : ℤ) ∧ 0 < p.2 ∧ p.2 < 2 * (W : ℤ) ∧
  p.1 % 2 + p.2 % 2 = 1

instance (W H : ℕ) (p : Pos) : Decidable (isPassageCell W H p) := by
  unfold isPassageCell; infer_instance

/-- A cell on the outer perimeter of the grid. -/
def onPerimeter (W H : ℕ) (p : Pos) : Prop :=
  0 ≤ p.1 ∧ p.1 ≤ 2 * (H : ℤ) ∧ 0 ≤ p.2 ∧ p.2 ≤ 2 * (W : ℤ) ∧
  (p.1 = 0 ∨ p.1 = 2 * (H : ℤ) ∨ p.2 = 0 ∨ p.2 = 2 * (W : ℤ))

instance (W H : ℕ) (p : Pos) : Decidable (onPerimeter W H p) := by
  unfold onPerimeter; infer_instance

/-- Stated from the claim's words, for comparison with the code's
`possible_exits` scan: a boundary coordinate whose one-step-inward
neighbour is an open room. -/
def eligibleExitCell (W H : ℕ) (g : Finset Pos) (p : Pos) : Prop :=
  (p.2 = 0 ∧ isRoomCell W H (p.1, 1) ∧ (p.1, 1) ∈ g) ∨
  (p.2 = 2 * (W : ℤ) ∧ isRoomCell W H (p.1, 2 * (W : ℤ) - 1) ∧ (p.1, 2 * (W : ℤ) - 1) ∈ g) ∨
  (p.1 = 0 ∧ isRoomCell W H (1, p.2) ∧ ((1 : ℤ), p.2) ∈ g) ∨
  (p.1 = 2 * (H : ℤ) ∧ isRoomCell W H (2 * (H : ℤ) - 1, p.2) ∧ (2 * (H : ℤ) - 1, p.2) ∈ g)

instance (W H : ℕ) (g : Finset Pos) (p : Pos) : Decidable (eligibleExitCell W H g p) := by
  unfold eligibleExitCell; infer_instance

/-- A 4-connected route through open cells from `a` to `b`: nonempty,
starting at `a`, ending at `b`, every step moving to an in-bounds open
4-neighbour. -/
def IsRoute (g : Grid) (a b : Pos) (p : List Pos) : Prop :=
  p.head? = some a ∧ p.getLast? = some b ∧
  p.Chain' (fun u v => v ∈ getNeighbors g u)

/-! ## Concrete oracles (used by witnesses) -/

/-- The identity shuffle outcome: every `random.shuffle` call leaves the
direction list unchanged (a legal permutation outcome). -/
def rngIdentity : ℕ → List Pos := fun _ => dfsDirections

/-- The sampling outcome that picks the first `k` candidates (a legal
`random.sample` outcome). -/
def sampleTake : List Pos → ℕ → List Pos := fun l k => l.take k

theorem sampleTake_spec : SampleSpec sampleTake := by
  intro l k
  refine ⟨(List.take_sublist k l).subperm, ?_⟩
  simp [sampleTake]

/-! ## The full pipeline, for the determinism claim -/

/-- One complete run: generation (carving, entrance, exits) followed by
pathfinding, producing the grid, the exit list and the path list. -/
def runAll (W H numExits : ℕ) (rng : ℕ → List Pos)
    (sample : List Pos → ℕ → List Pos) (genFuel pathFuel : ℕ) :
    Except GenErr (Finset Pos × List Pos × List (List Pos)) :=
  match generateMaze W H numExits rng sample genFuel with
  | .error e => .error e
  | .ok m => .ok (m.grid, m.exits, findAllPathsList (mazeGrid W H m.grid) pathFuel m.exits)

/-! ## C7: determinism -/

/-- C7: for every fixed configuration `(W, H, num_exits)` and fixed random
source, two complete runs of generation, exit selection and pathfinding
produce identical grid, exit list and path list.  In the embedding the
random source (shuffle stream and sampler) is the only extra input, so
fixing it fixes every output. -/
theorem determinism_full_run (W H numExits : ℕ) (rng1 rng2 : ℕ → List Pos)
    (sample1 sample2 : List Pos → ℕ → List Pos) (genFuel pathFuel : ℕ)
    (hrng : rng1 = rng2) (hsample : sample1 = sample2) :
    runAll W H numExits rng1 sample1 genFuel pathFuel =
      runAll W H numExits rng2 sample2 genFuel pathFuel := by
  rw [hrng, hsample]

theorem determinism_full_run_witness :
    runAll 1 1 1 rngIdentity sampleTake 5 20 =
      runAll 1 1 1 rngIdentity sampleTake 5 20 :=
  determinism_full_run 1 1 1 rngIdentity rngIdentity sampleTake sampleTake 5 20 rfl rfl

/-! ## C9: `find_all_paths` is idempotent -/

/-- C9: calling `find_all_paths` twice with no intervening mutation of the
grid or exit list yields the same `PathList`: the second call replaces
(`self.paths = []` then recompute) rather than appends, and each search is
a function of the grid and exit list alone. -/
theorem findAllPaths_idempotent (fuel : ℕ) (st : SearchState) :
    findAllPaths fuel (findAllPaths fuel st) = findAllPaths fuel st := rfl

/-! ## C5: there is no dimension validation -/

/-- C5 counterexample: with `width = 0` (< 1), `generate_maze` does not
report an `InvalidDimensions` error before carving; instead carving is
attempted — `_dfs(1, 1)` runs and its very first room write
`maze[1, 1] = 0` is out of bounds of the `3 × 1` grid, raising numpy's
`IndexError`.  The same holds for `height = 0`. -/
theorem no_dimension_check_cex :
    generateMaze 0 1 1 rngIdentity sampleTake 5 = .error .idxErr ∧
    dfsF rngIdentity 3 1 5 1 1 ⟨∅, ∅, 0⟩ = .error .idxErr ∧
    generateMaze 1 0 1 rngIdentity sampleTake 5 = .error .idxErr := by
  constructor
  · rfl
  constructor
  · rfl
  · rfl

/-- C5 amended: the code performs no dimension validation at all.  For
`width = 0` or `height = 0`, construction allocates the degenerate grid
and `generate_maze` proceeds into carving, whose first room write fails
with an `IndexError` (for negative dimensions the numpy allocation itself
fails; negative sizes are outside this embedding, which uses `ℕ`).  No
`InvalidDimensions` error exists anywhere in the code. -/
theorem generate_invalid_dims (W H numExits : ℕ) (rng : ℕ → List Pos)
    (sample : List Pos → ℕ → List Pos) (fuel : ℕ) (hfuel : 1 ≤ fuel)
    (hdeg : W = 0 ∨ H = 0) :
    generateMaze W H numExits rng sample fuel = .error .idxErr := by
  obtain ⟨f, rfl⟩ : ∃ f, fuel = f + 1 := ⟨fuel - 1, by omega⟩
  have hset : setCell (2 * (H : ℤ) + 1) (2 * (W : ℤ) + 1)
      (∅ : Finset Pos) ((1 : ℤ), (1 : ℤ)) = none := by
    unfold setCell
    split
    · rename_i hcond
      exfalso
      rcases hdeg with h | h <;> subst h <;> simp at hcond
    · rfl
  simp only [generateMaze, dfsF, hset]

theorem generate_invalid_dims_witness :
    1 ≤ 1 ∧ (0 = 0 ∨ 1 = 0) ∧
      generateMaze 0 1 1 rngIdentity sampleTake 1 = .error .idxErr :=
  ⟨le_refl 1, Or.inl rfl,
    generate_invalid_dims 0 1 1 rngIdentity sampleTake 1 (le_refl 1) (Or.inl rfl)⟩

/-! ## Basic lemmas: association lookup, heap pop, neighbours -/

theorem alookup_cons {β : Type} (k : Pos) (v : β) (l : List (Pos × β)) (q : Pos) :
    alookup ((k, v) :: l) q = if q = k then some v else alookup l q := rfl

theorem entryLe_fst {a b : Entry} (h : entryLe a b) : a.1 ≤ b.1 := by
  rcases h with h | ⟨h, -⟩ <;> omega

theorem not_entryLe_fst {a b : Entry} (h : ¬ entryLe a b) : b.1 ≤ a.1 := by
  unfold entryLe at h
  push_neg at h
  exact h.1

theorem popMin_eq_none {l : List Entry} : popMin l = none ↔ l = [] := by
  cases l with
  | nil => simp [popMin]
  | cons e rest =>
    rw [popMin]
    constructor
    · intro h
      split at h
      · simp at h
      · split at h <;> simp at h
    · intro h
      simp at h

theorem popMin_mem {l : List Entry} {e : Entry} {r : List Entry}
    (h : popMin l = some (e, r)) : e ∈ l := by
  induction l generalizing e r with
  | nil => simp [popMin] at h
  | cons a rest ih =>
    rw [popMin] at h
    split at h
    · simp at h
      simp [h.1]
    · rename_i m rr heq
      split at h
      · simp at h
        simp [h.1]
      · simp at h
        right
        rw [← h.1]
        exact ih heq

theorem popMin_cover {l : List Entry} {e : Entry} {r : List Entry}
    (h : popMin l = some (e, r)) : ∀ x ∈ l, x = e ∨ x ∈ r := by
  induction l generalizing e r with
  | nil => simp [popMin] at h
  | cons a rest ih =>
    rw [popMin] at h
    split at h
    · rename_i heq
      rw [popMin_eq_none] at heq
      subst heq
      simp at h
      simp [h.1]
    · rename_i m rr heq
      split at h
      · simp at h
        intro x hx
        rcases List.mem_cons.mp hx with hx | hx
        · left; rw [hx, h.1]
        · right; rw [← h.2]; exact hx
      · simp at h
        intro x hx
        rcases List.mem_cons.mp hx with hx | hx
        · right; rw [← h.2]; simp [hx]
        · rcases ih heq x hx with hx2 | hx2
          · left; rw [hx2, h.1]
          · right; rw [← h.2]; simp [hx2]

theorem popMin_subset {l : List Entry} {e : Entry} {r : List Entry}
    (h : popMin l = some (e, r)) : ∀ x ∈ r, x ∈ l := by
  induction l generalizing e r with
  | nil => simp [popMin] at h
  | cons a rest ih =>
    rw [popMin] at h
    split at h
    · simp at h
      rw [h.2]
      simp
    · rename_i m rr heq
      split at h
      · simp at h
        intro x hx
        rw [← h.2] at hx
        simp [hx]
      · simp at h
        intro x hx
        rw [← h.2] at hx
        rcases List.mem_cons.mp hx with hx | hx
        · simp [hx]
        · simp [ih heq x hx]

theorem popMin_min {l : List Entry} {e : Entry} {r : List Entry}
    (h : popMin l = some (e, r)) : ∀ x ∈ l, e.1 ≤ x.1 := by
  induction l generalizing e r with
  | nil => simp [popMin] at h
  | cons a rest ih =>
    rw [popMin] at h
    split at h
    · rename_i heq
      rw [popMin_eq_none] at heq
      subst heq
      simp at h
      intro x hx
      simp at hx
      rw [hx, ← h.1]
    · rename_i m rr heq
      split at h
      · rename_i hle
        simp at h
        intro x hx
        rcases List.mem_cons.mp hx with hx | hx
        · rw [hx, ← h.1]
        · rw [← h.1]
          exact le_trans (entryLe_fst hle) (ih heq x hx)
      · rename_i hle
        simp at h
        intro x hx
        rcases List.mem_cons.mp hx with hx | hx
        · rw [hx, ← h.1]
          exact not_entryLe_fst hle
        · rw [← h.1]
          exact ih heq x hx

theorem getNeighbors_open {g : Grid} {u v : Pos} (h : v ∈ getNeighbors g u) :
    0 ≤ v.1 ∧ v.1 < g.rows ∧ 0 ≤ v.2 ∧ v.2 < g.cols ∧ v ∈ g.openCells := by
  unfold getNeighbors at h
  rw [List.mem_filterMap] at h
  obtain ⟨d, hd, hf⟩ := h
  dsimp only at hf
  split at hf
  · rename_i hc
    cases hf
    exact hc
  · simp at hf

theorem getNeighbors_delta {g : Grid} {u v : Pos} (h : v ∈ getNeighbors g u) :
    v = (u.1, u.2 + 1) ∨ v = (u.1 + 1, u.2) ∨ v = (u.1, u.2 - 1) ∨ v = (u.1 - 1, u.2) := by
  unfold getNeighbors neighborDirs at h
  rw [List.mem_filterMap] at h
  obtain ⟨d, hd, hf⟩ := h
  dsimp only at hf
  split at hf
  · cases hf
    fin_cases hd
    · left; rw [Prod.ext_iff]; dsimp only; omega
    · right; left; rw [Prod.ext_iff]; dsimp only; omega
    · right; right; left; rw [Prod.ext_iff]; dsimp only; omega
    · right; right; right; rw [Prod.ext_iff]; dsimp only; omega
  · simp at hf

theorem getNeighbors_ne {g : Grid} {u v : Pos} (h : v ∈ getNeighbors g u) : v ≠ u := by
  intro he
  subst he
  rcases getNeighbors_delta h with h1 | h1 | h1 | h1 <;>
    · rw [Prod.ext_iff] at h1
      dsimp only at h1
      omega

theorem abs_sub_succ (a b : ℤ) : |a - b| ≤ |a - (b + 1)| + 1 := by
  have h := abs_sub_abs_le_abs_sub (a - b) (a - (b + 1))
  have h2 : (a - b) - (a - (b + 1)) = 1 := by ring
  rw [h2] at h
  simp at h
  linarith

theorem abs_sub_pred (a b : ℤ) : |a - b| ≤ |a - (b - 1)| + 1 := by
  have h := abs_sub_abs_le_abs_sub (a - b) (a - (b - 1))
  have h2 : (a - b) - (a - (b - 1)) = -1 := by ring
  rw [h2] at h
  simp at h
  linarith

theorem heuristic_nonneg (a b : Pos) : 0 ≤ heuristic a b :=
  add_nonneg (abs_nonneg _) (abs_nonneg _)

theorem heuristic_self (a : Pos) : heuristic a a = 0 := by
  simp [heuristic]

/-- One grid step changes the Manhattan distance to any fixed target by at
most one: the heuristic is admissible along 4-connected routes. -/
theorem heuristic_step {g : Grid} {u v : Pos} (w : Pos) (h : v ∈ getNeighbors g u) :
    heuristic w u ≤ heuristic w v + 1 := by
  unfold heuristic
  rcases getNeighbors_delta h with h1 | h1 | h1 | h1 <;> subst h1 <;> dsimp only
  · have := abs_sub_succ w.2 u.2
    linarith
  · have := abs_sub_succ w.1 u.1
    linarith
  · have := abs_sub_pred w.2 u.2
    linarith
  · have := abs_sub_pred w.1 u.1
    linarith

theorem alookup_cons_self {β : Type} (k : Pos) (v : β) (l : List (Pos × β)) :
    alookup ((k, v) :: l) k = some v := by simp [alookup]

theorem alookup_cons_ne {β : Type} {k q : Pos} (v : β) (l : List (Pos × β)) (h : q ≠ k) :
    alookup ((k, v) :: l) q = alookup l q := by simp [alookup, h]

/-! ## The A* loop invariant -/

/-- Bookkeeping soundness of `_astar`'s loop state relative to grid `g`,
start `s` and the goal: the start has cost `0` and no predecessor; costs
and predecessors are recorded together; costs are nonnegative; a recorded
predecessor is an actual grid neighbour with strictly smaller cost; only
the start has predecessor `None`; every frontier entry's priority bounds
its cell's current cost; and while the goal has a cost it has a frontier
entry (it is popped only at the `break`). -/
structure ACore (g : Grid) (s goal : Pos) (st : AState) : Prop where
  costStart : alookup st.costSoFar s = some 0
  cfStart : alookup st.cameFrom s = some none
  keysIff : ∀ v : Pos, (alookup st.costSoFar v).isSome ↔ (alookup st.cameFrom v).isSome
  costNonneg : ∀ v c, alookup st.costSoFar v = some c → 0 ≤ c
  parent : ∀ v u, alookup st.cameFrom v = some (some u) →
    v ∈ getNeighbors g u ∧ ∃ cu cv, alookup st.costSoFar u = some cu ∧
      alookup st.costSoFar v = some cv ∧ cu < cv
  rootNone : ∀ v, alookup st.cameFrom v = some none → v = s
  frontierCost : ∀ pri v, (pri, v) ∈ st.frontier →
    ∃ cv, alookup st.costSoFar v = some cv ∧ cv ≤ pri
  goalLive : ∀ cg, alookup st.costSoFar goal = some cg → ∃ pri, (pri, goal) ∈ st.frontier

/-- The propagation property for a costed cell `v`: either `v` has a live
frontier entry whose priority is at most `cost v + heuristic`, or all of
`v`'s neighbours have already been relaxed from `v`'s current cost. -/
def reachPropAt (g : Grid) (goal : Pos) (st : AState) (v : Pos) (cv : ℤ) : Prop :=
  (∃ pri, (pri, v) ∈ st.frontier ∧ pri ≤ cv + heuristic goal v) ∨
  (∀ u ∈ getNeighbors g v, ∃ cu, alookup st.costSoFar u = some cu ∧ cu ≤ cv + 1)

/-- The full loop invariant. -/
def AInv (g : Grid) (s goal : Pos) (st : AState) : Prop :=
  ACore g s goal st ∧
  ∀ v cv, alookup st.costSoFar v = some cv → reachPropAt g goal st v cv

/-- Case analysis of `relax`: either nothing changes (and the neighbour's
cost already beats `cost[current] + 1`), or the neighbour's entries are
freshly created/overwritten with `newCost = cost[current] + 1`. -/
theorem relax_cases (goal cur : Pos) (st : AState) (v : Pos) :
    (relax goal cur st v = st ∧
      ∃ cv, alookup st.costSoFar v = some cv ∧
        cv ≤ (alookup st.costSoFar cur).getD 0 + 1) ∨
    ((∀ cv, alookup st.costSoFar v = some cv →
        (alookup st.costSoFar cur).getD 0 + 1 < cv) ∧
      relax goal cur st v =
        ⟨((alookup st.costSoFar cur).getD 0 + 1 + heuristic goal v, v) :: st.frontier,
          (v, some cur) :: st.cameFrom,
          (v, (alookup st.costSoFar cur).getD 0 + 1) :: st.costSoFar⟩) := by
  unfold relax
  dsimp only
  cases hl : alookup st.costSoFar v with
  | none =>
    right
    constructor
    · intro cv hcv
      simp at hcv
    · simp
  | some c =>
    by_cases hlt : (alookup st.costSoFar cur).getD 0 + 1 < c
    · right
      constructor
      · intro cv hcv
        cases hcv
        exact hlt
      · simp [hlt]
    · left
      constructor
      · simp [hlt]
      · exact ⟨c, rfl, by omega⟩

/-- The core invariant is preserved when `relax` actually updates a
neighbour `v` of `cur` (fresh cost `ccur + 1`, new predecessor `cur`,
fresh frontier entry). -/
theorem update_preserves (g : Grid) (s goal cur v : Pos) (ccur : ℤ) (st : AState)
    (hcore : ACore g s goal st)
    (hcur : alookup st.costSoFar cur = some ccur)
    (hv : v ∈ getNeighbors g cur)
    (hlt : ∀ cv, alookup st.costSoFar v = some cv → ccur + 1 < cv) :
    ACore g s goal ⟨(ccur + 1 + heuristic goal v, v) :: st.frontier,
      (v, some cur) :: st.cameFrom, (v, ccur + 1) :: st.costSoFar⟩ := by
  have hvne : v ≠ cur := getNeighbors_ne hv
  have hcvne : cur ≠ v := Ne.symm hvne
  have hccnn : 0 ≤ ccur := hcore.costNonneg cur ccur hcur
  have hsv : s ≠ v := by
    intro h
    subst h
    have h0 := hlt 0 hcore.costStart
    omega
  constructor
  · rw [alookup_cons_ne _ _ hsv]
    exact hcore.costStart
  · rw [alookup_cons_ne _ _ hsv]
    exact hcore.cfStart
  · intro w
    by_cases hwv : w = v
    · subst hwv
      simp [alookup_cons_self]
    · rw [alookup_cons_ne _ _ hwv, alookup_cons_ne _ _ hwv]
      exact hcore.keysIff w
  · intro w c h
    by_cases hwv : w = v
    · subst hwv
      rw [alookup_cons_self] at h
      cases h
      omega
    · rw [alookup_cons_ne _ _ hwv] at h
      exact hcore.costNonneg w c h
  · intro w u h
    by_cases hwv : w = v
    · subst hwv
      rw [alookup_cons_self] at h
      have hu : u = cur := by
        cases h
        rfl
      subst hu
      refine ⟨hv, ccur, ccur + 1, ?_, alookup_cons_self _ _ _, by omega⟩
      rw [alookup_cons_ne _ _ hcvne]
      exact hcur
    · rw [alookup_cons_ne _ _ hwv] at h
      obtain ⟨hadj, cu, cw, hcu, hcw, hlt2⟩ := hcore.parent w u h
      refine ⟨hadj, ?_⟩
      by_cases huv : u = v
      · subst huv
        have hlt3 := hlt cu hcu
        refine ⟨ccur + 1, cw, alookup_cons_self _ _ _, ?_, by omega⟩
        rw [alookup_cons_ne _ _ hwv]
        exact hcw
      · refine ⟨cu, cw, ?_, ?_, hlt2⟩
        · rw [alookup_cons_ne _ _ huv]
          exact hcu
        · rw [alookup_cons_ne _ _ hwv]
          exact hcw
  · intro w h
    by_cases hwv : w = v
    · subst hwv
      rw [alookup_cons_self] at h
      simp at h
    · rw [alookup_cons_ne _ _ hwv] at h
      exact hcore.rootNone w h
  · intro pri w hmem
    rcases List.mem_cons.mp hmem with hmem | hmem
    · rw [Prod.mk.injEq] at hmem
      obtain ⟨h1, h2⟩ := hmem
      subst h2
      have hh := heuristic_nonneg goal w
      refine ⟨ccur + 1, alookup_cons_self _ _ _, by omega⟩
    · obtain ⟨cw, hcw, hle⟩ := hcore.frontierCost pri w hmem
      by_cases hwv : w = v
      · subst hwv
        have := hlt cw hcw
        exact ⟨ccur + 1, alookup_cons_self _ _ _, by omega⟩
      · refine ⟨cw, ?_, hle⟩
        rw [alookup_cons_ne _ _ hwv]
        exact hcw
  · intro cg h
    by_cases hgv : goal = v
    · subst hgv
      exact ⟨ccur + 1 + heuristic goal goal, List.mem_cons_self _ _⟩
    · rw [alookup_cons_ne _ _ hgv] at h
      obtain ⟨pri, hp⟩ := hcore.goalLive cg h
      exact ⟨pri, List.mem_cons_of_mem _ hp⟩

/-- Mid-fold invariant while relaxing `cur`'s neighbours: the core
invariant, the unchanged cost of `cur`, and the propagation property,
weakened at `cur` itself to the already-processed neighbours. -/
def MidState (g : Grid) (s goal cur : Pos) (ccur : ℤ) (processed : List Pos)
    (st : AState) : Prop :=
  ACore g s goal st ∧
  alookup st.costSoFar cur = some ccur ∧
  ∀ v cv, alookup st.costSoFar v = some cv →
    reachPropAt g goal st v cv ∨
    (v = cur ∧ ∀ u ∈ processed, ∃ cu, alookup st.costSoFar u = some cu ∧ cu ≤ cv + 1)

/-- One `relax` step preserves the mid-fold invariant, extending the
processed prefix by the relaxed neighbour. -/
theorem relax_mid (g : Grid) (s goal cur : Pos) (ccur : ℤ) (processed : List Pos)
    (st : AState) (v : Pos)
    (hv : v ∈ getNeighbors g cur)
    (hmid : MidState g s goal cur ccur processed st) :
    MidState g s goal cur ccur (processed ++ [v]) (relax goal cur st v) := by
  obtain ⟨hcore, hcur, hmidp⟩ := hmid
  have hvne : v ≠ cur := getNeighbors_ne hv
  have hcvne : cur ≠ v := Ne.symm hvne
  rcases relax_cases goal cur st v with ⟨heq, cv0, hcv0, hle0⟩ | ⟨hlt, heq⟩
  · rw [heq]
    rw [hcur] at hle0
    simp only [Option.getD_some] at hle0
    refine ⟨hcore, hcur, ?_⟩
    intro w cw hw
    rcases hmidp w cw hw with h | ⟨hwc, hproc⟩
    · exact Or.inl h
    · subst hwc
      refine Or.inr ⟨rfl, ?_⟩
      intro u hu
      rcases List.mem_append.mp hu with hu | hu
      · exact hproc u hu
      · simp at hu
        subst hu
        have hcw : cw = ccur := by
          rw [hw] at hcur
          cases hcur
          rfl
        exact ⟨cv0, hcv0, by omega⟩
  · rw [hcur] at hlt heq
    simp only [Option.getD_some] at hlt heq
    rw [heq]
    have hcore2 := update_preserves g s goal cur v ccur st hcore hcur hv hlt
    refine ⟨hcore2, ?_, ?_⟩
    · rw [alookup_cons_ne _ _ hcvne]
      exact hcur
    · intro w cw hw
      by_cases hwv : w = v
      · subst hwv
        rw [alookup_cons_self] at hw
        cases hw
        left
        exact Or.inl ⟨ccur + 1 + heuristic goal w, List.mem_cons_self _ _, le_refl _⟩
      · rw [alookup_cons_ne _ _ hwv] at hw
        rcases hmidp w cw hw with h | ⟨hwc, hproc⟩
        · left
          rcases h with ⟨pri, hmem, hle⟩ | h2
          · exact Or.inl ⟨pri, List.mem_cons_of_mem _ hmem, hle⟩
          · right
            intro u hu
            obtain ⟨cu, hcu, hle⟩ := h2 u hu
            by_cases huv : u = v
            · subst huv
              have := hlt cu hcu
              exact ⟨ccur + 1, alookup_cons_self _ _ _, by omega⟩
            · refine ⟨cu, ?_, hle⟩
              rw [alookup_cons_ne _ _ huv]
              exact hcu
        · subst hwc
          have hcw : cw = ccur := by
            rw [hw] at hcur
            cases hcur
            rfl
          refine Or.inr ⟨rfl, ?_⟩
          intro u hu
          rcases List.mem_append.mp hu with hu | hu
          · obtain ⟨cu, hcu, hle⟩ := hproc u hu
            by_cases huv : u = v
            · subst huv
              have := hlt cu hcu
              exact ⟨ccur + 1, alookup_cons_self _ _ _, by omega⟩
            · refine ⟨cu, ?_, hle⟩
              rw [alookup_cons_ne _ _ huv]
              exact hcu
          · simp at hu
            subst hu
            exact ⟨ccur + 1, alookup_cons_self _ _ _, by omega⟩

/-- Folding `relax` over a suffix of `cur`'s neighbour list extends the
processed prefix accordingly. -/
theorem foldl_relax_mid (g : Grid) (s goal cur : Pos) (ccur : ℤ) :
    ∀ (todo processed : List Pos) (st : AState),
      (∀ u ∈ todo, u ∈ getNeighbors g cur) →
      MidState g s goal cur ccur processed st →
      MidState g s goal cur ccur (processed ++ todo) (todo.foldl (relax goal cur) st) := by
  intro todo
  induction todo with
  | nil =>
    intro processed st _ hmid
    simpa using hmid
  | cons v rest ih =>
    intro processed st htodo hmid
    have hv : v ∈ getNeighbors g cur := htodo v (List.mem_cons_self _ _)
    have hstep := relax_mid g s goal cur ccur processed st v hv hmid
    have := ih (processed ++ [v]) (relax goal cur st v)
      (fun u hu => htodo u (List.mem_cons_of_mem _ hu)) hstep
    simpa using this

/-- Admissibility: the Manhattan heuristic never exceeds the remaining
edge count of any 4-connected route to the goal. -/
theorem manhattan_le_len (g : Grid) (goal : Pos) :
    ∀ (q : List Pos) (a : Pos), q.head? = some a → q.getLast? = some goal →
      q.Chain' (fun u v => v ∈ getNeighbors g u) →
      heuristic goal a ≤ (q.length : ℤ) - 1 := by
  intro q
  induction q with
  | nil => intro a h1 _ _; simp at h1
  | cons b q ih =>
    intro a h1 h2 h3
    have hab : b = a := by simpa using h1
    subst hab
    cases q with
    | nil =>
      have hg : b = goal := by simpa using h2
      subst hg
      simp [heuristic_self]
    | cons c q2 =>
      have hstep : c ∈ getNeighbors g b := (List.chain'_cons.mp h3).1
      have h3b := (List.chain'_cons.mp h3).2
      have h2b : (c :: q2).getLast? = some goal := by
        rw [List.getLast?_cons_cons] at h2
        exact h2
      have hih := ih c rfl h2b h3b
      have hs := heuristic_step goal hstep
      simp only [List.length_cons] at hih ⊢
      push_cast at hih ⊢
      omega

/-- At any state satisfying the invariant in which a goal entry is the
frontier minimum, the goal's recorded cost plus one bounds the cell count
of every route from the start to the goal. -/
theorem walk_bound (g : Grid) (s goal : Pos) (st : AState)
    (hinv : AInv g s goal st) (prig : ℤ)
    (hmem : (prig, goal) ∈ st.frontier)
    (hmin : ∀ x ∈ st.frontier, prig ≤ x.1) :
    ∀ (q : List Pos) (a : Pos) (ca : ℤ),
      q.head? = some a → q.getLast? = some goal →
      q.Chain' (fun u v => v ∈ getNeighbors g u) →
      alookup st.costSoFar a = some ca →
      ∃ cg, alookup st.costSoFar goal = some cg ∧ cg ≤ ca + (q.length : ℤ) - 1 := by
  intro q
  induction q with
  | nil => intro a ca h1 _ _ _; simp at h1
  | cons b q ih =>
    intro a ca h1 h2 h3 h4
    have hab : b = a := by simpa using h1
    subst hab
    cases q with
    | nil =>
      have hg : b = goal := by simpa using h2
      subst hg
      exact ⟨ca, h4, by simp⟩
    | cons c q2 =>
      have hstep : c ∈ getNeighbors g b := (List.chain'_cons.mp h3).1
      have h3b := (List.chain'_cons.mp h3).2
      have h2b : (c :: q2).getLast? = some goal := by
        rw [List.getLast?_cons_cons] at h2
        exact h2
      rcases hinv.2 b ca h4 with ⟨pri, hmemb, hle⟩ | h2nb
      · have hadm : heuristic goal b ≤ ((b :: c :: q2).length : ℤ) - 1 :=
          manhattan_le_len g goal (b :: c :: q2) b rfl h2 h3
        have hminb := hmin (pri, b) hmemb
        obtain ⟨cg, hcg, hcgle⟩ := hinv.1.frontierCost prig goal hmem
        refine ⟨cg, hcg, ?_⟩
        simp only [List.length_cons] at hadm ⊢
        push_cast at hadm ⊢
        omega
      · obtain ⟨cc, hcc, hlec⟩ := h2nb c hstep
        obtain ⟨cg, hcg, hle2⟩ := ih c cc rfl h2b h3b hcc
        refine ⟨cg, hcg, ?_⟩
        simp only [List.length_cons] at hle2 ⊢
        push_cast at hle2 ⊢
        omega

/-- The loop body (pop a non-goal entry, relax all its neighbours)
preserves the full invariant. -/
theorem loop_body_inv (g : Grid) (s goal : Pos) (st : AState) (e : Entry)
    (rest : List Entry)
    (hinv : AInv g s goal st)
    (hpop : popMin st.frontier = some (e, rest))
    (hne : e.2 ≠ goal) :
    AInv g s goal
      ((getNeighbors g e.2).foldl (relax goal e.2) { st with frontier := rest }) := by
  obtain ⟨hcore, hreach⟩ := hinv
  have hemem : e ∈ st.frontier := popMin_mem hpop
  obtain ⟨ccur, hccur, hcle⟩ := by
    have := hcore.frontierCost e.1 e.2 (by simpa using hemem)
    exact this
  have hcore1 : ACore g s goal { st with frontier := rest } := by
    constructor
    · exact hcore.costStart
    · exact hcore.cfStart
    · exact hcore.keysIff
    · exact hcore.costNonneg
    · exact hcore.parent
    · exact hcore.rootNone
    · intro pri v hmem
      exact hcore.frontierCost pri v (popMin_subset hpop _ hmem)
    · intro cg h
      obtain ⟨pri, hp⟩ := hcore.goalLive cg h
      rcases popMin_cover hpop (pri, goal) hp with hx | hx
      · exfalso
        apply hne
        rw [← hx]
      · exact ⟨pri, hx⟩
  have hmid : MidState g s goal e.2 ccur [] { st with frontier := rest } := by
    refine ⟨hcore1, hccur, ?_⟩
    intro w cw hw
    rcases hreach w cw hw with ⟨pri, hmem, hle⟩ | h2
    · rcases popMin_cover hpop (pri, w) hmem with hx | hx
      · right
        have hw2 : w = e.2 := by rw [← hx]
        exact ⟨hw2, by simp⟩
      · left
        exact Or.inl ⟨pri, hx, hle⟩
    · left
      exact Or.inr h2
  have hfold := foldl_relax_mid g s goal e.2 ccur (getNeighbors g e.2) []
    { st with frontier := rest } (fun u hu => hu) hmid
  obtain ⟨hcore2, hcur2, hmid2⟩ := hfold
  refine ⟨hcore2, ?_⟩
  intro w cw hw
  rcases hmid2 w cw hw with h | ⟨hwc, hproc⟩
  · exact h
  · subst hwc
    right
    intro u hu
    exact hproc u (by simpa using hu)

/-- The loop either empties the frontier without ever recording the goal,
or breaks on popping the goal; in both ending states the core invariant
holds and, if the goal is recorded, its cost plus one bounds the length of
every route from the start. -/
theorem astarLoop_inv (g : Grid) (s goal : Pos) :
    ∀ (fuel : ℕ) (st st2 : AState),
      AInv g s goal st →
      astarLoop g goal fuel st = some st2 →
      ACore g s goal st2 ∧
      (∀ x, alookup st2.cameFrom goal = some x →
        ∃ cg, alookup st2.costSoFar goal = some cg ∧
          ∀ q, IsRoute g s goal q → cg + 1 ≤ (q.length : ℤ)) := by
  intro fuel
  induction fuel with
  | zero => intro st st2 _ h; simp [astarLoop] at h
  | succ fuel ih =>
    intro st st2 hinv h
    rw [astarLoop] at h
    split at h
    · rename_i heq
      cases h
      refine ⟨hinv.1, ?_⟩
      intro x hx
      exfalso
      have hsome : (alookup st.costSoFar goal).isSome := by
        rw [hinv.1.keysIff goal, hx]
        rfl
      obtain ⟨cg, hcg⟩ := Option.isSome_iff_exists.mp hsome
      obtain ⟨pri, hp⟩ := hinv.1.goalLive cg hcg
      rw [popMin_eq_none] at heq
      rw [heq] at hp
      simp at hp
    · rename_i e rest heq
      split at h
      · rename_i hgoal
        cases h
        refine ⟨hinv.1, ?_⟩
        intro x hx
        have hemem : e ∈ st.frontier := popMin_mem heq
        have hmem : (e.1, goal) ∈ st.frontier := by
          rw [← hgoal]
          simpa using hemem
        have hmin : ∀ y ∈ st.frontier, e.1 ≤ y.1 := popMin_min heq
        obtain ⟨cg, hcg, hcgle⟩ := hinv.1.frontierCost e.1 goal hmem
        refine ⟨cg, hcg, ?_⟩
        intro q hq
        obtain ⟨hh, hl, hc⟩ := hq
        obtain ⟨cg2, hcg2, hb⟩ := walk_bound g s goal st hinv e.1 hmem hmin q s 0
          hh hl hc hinv.1.costStart
        rw [hcg] at hcg2
        cases hcg2
        omega
      · rename_i hgoal
        exact ih _ _ (loop_body_inv g s goal st e rest hinv heq hgoal) h

/-- Walking `came_from` from any costed cell terminates (the predecessor
chain strictly decreases cost), ends at the start, and the result extends
the accumulator with at most `cost + 1` cells. -/
theorem reconstruct_spec (g : Grid) (s goal : Pos) (st : AState)
    (hcore : ACore g s goal st) :
    ∀ (n : ℕ) (cur : Pos) (acc : List Pos) (ccur : ℤ),
      alookup st.costSoFar cur = some ccur →
      ccur.toNat < n →
      (cur :: acc).Chain' (fun a b => alookup st.cameFrom b = some (some a)) →
      (cur :: acc).getLast? = some goal →
      ∃ res, reconstructPath st.cameFrom n cur acc = some res ∧
        res.head? = some s ∧ res.getLast? = some goal ∧
        res.Chain' (fun a b => alookup st.cameFrom b = some (some a)) ∧
        res.length ≤ acc.length + ccur.toNat + 1 := by
  intro n
  induction n with
  | zero => intro cur acc ccur _ h2; omega
  | succ n ih =>
    intro cur acc ccur h1 h2 h3 h4
    rw [reconstructPath]
    have hsome : (alookup st.cameFrom cur).isSome := by
      rw [← hcore.keysIff cur, h1]
      rfl
    cases hcf : alookup st.cameFrom cur with
    | none => rw [hcf] at hsome; cases hsome
    | some o =>
      cases o with
      | none =>
        have hcs : cur = s := hcore.rootNone cur hcf
        refine ⟨cur :: acc, rfl, by simp [hcs], h4, h3, by simp⟩
      | some p =>
        obtain ⟨hadj, cp, ccur2, hcp, hccur2, hlt⟩ := hcore.parent cur p hcf
        rw [h1] at hccur2
        cases hccur2
        have hnn : 0 ≤ cp := hcore.costNonneg p cp hcp
        have hchain2 : (p :: cur :: acc).Chain' (fun a b => alookup st.cameFrom b = some (some a)) :=
          List.chain'_cons.mpr ⟨hcf, h3⟩
        have hlast2 : (p :: cur :: acc).getLast? = some goal := by
          rw [List.getLast?_cons_cons]
          exact h4
        obtain ⟨res, hres, hh, hl, hc, hlen⟩ :=
          ih p (cur :: acc) cp hcp (by omega) hchain2 hlast2
        refine ⟨res, hres, hh, hl, hc, ?_⟩
        simp only [List.length_cons] at hlen
        omega

/-- Every element of a neighbour-chain starting at `a` is `a` itself or an
open cell. -/
theorem chain_mem_open (g : Grid) :
    ∀ (l : List Pos) (a : Pos), l.head? = some a →
      l.Chain' (fun u v => v ∈ getNeighbors g u) →
      ∀ x ∈ l, x = a ∨ x ∈ g.openCells := by
  intro l
  induction l with
  | nil => intro a h1; simp at h1
  | cons b t ih =>
    intro a h1 h2 x hx
    have hab : b = a := by simpa using h1
    subst hab
    rcases List.mem_cons.mp hx with hx | hx
    · exact Or.inl hx
    · cases t with
      | nil => simp at hx
      | cons c t2 =>
        have hstep : c ∈ getNeighbors g b := (List.chain'_cons.mp h2).1
        have h2b := (List.chain'_cons.mp h2).2
        rcases ih c rfl h2b x hx with hx2 | hx2
        · subst hx2
          exact Or.inr (getNeighbors_open hstep).2.2.2.2
        · exact Or.inr hx2

/-- Soundness and optimality of `_astar`: when it returns a path, the path
runs from `start` to `goal` along open in-bounds 4-neighbour steps, visits
no cell twice, and its cell count is minimal among all such routes. -/
theorem astar_spec (g : Grid) (fuel : ℕ) (s goal : Pos) (p : List Pos)
    (h : astar g fuel s goal = some p) :
    p.head? = some s ∧ p.getLast? = some goal ∧
    p.Chain' (fun u v => v ∈ getNeighbors g u) ∧
    p.Nodup ∧
    (∀ x ∈ p, x = s ∨ x ∈ g.openCells) ∧
    ∀ q, IsRoute g s goal q → p.length ≤ q.length := by
  unfold astar at h
  split at h
  · cases h
  · rename_i st hloop
    split at h
    · cases h
    · rename_i x hx
      have hinv0 : AInv g s goal ⟨[(0, s)], [(s, none)], [(s, 0)]⟩ := by
        constructor
        · constructor
          · exact alookup_cons_self _ _ _
          · exact alookup_cons_self _ _ _
          · intro v
            by_cases hv : v = s
            · subst hv
              simp [alookup_cons_self]
            · rw [alookup_cons_ne _ _ hv, alookup_cons_ne _ _ hv]
              simp [alookup]
          · intro v c hc
            by_cases hv : v = s
            · subst hv
              rw [alookup_cons_self] at hc
              cases hc
              omega
            · rw [alookup_cons_ne _ _ hv] at hc
              simp [alookup] at hc
          · intro v u hvu
            by_cases hv : v = s
            · subst hv
              rw [alookup_cons_self] at hvu
              simp at hvu
            · rw [alookup_cons_ne _ _ hv] at hvu
              simp [alookup] at hvu
          · intro v hv
            by_cases hvs : v = s
            · exact hvs
            · rw [alookup_cons_ne _ _ hvs] at hv
              simp [alookup] at hv
          · intro pri v hmem
            simp at hmem
            obtain ⟨h1, h2⟩ := hmem
            subst h1
            subst h2
            exact ⟨0, alookup_cons_self _ _ _, le_refl 0⟩
          · intro cg hcg
            by_cases hgs : goal = s
            · subst hgs
              exact ⟨0, by simp⟩
            · rw [alookup_cons_ne _ _ hgs] at hcg
              simp [alookup] at hcg
        · intro v cv hcv
          by_cases hv : v = s
          · subst hv
            rw [alookup_cons_self] at hcv
            cases hcv
            left
            refine ⟨0, by simp, ?_⟩
            exact le_add_of_nonneg_right (heuristic_nonneg _ _)
          · rw [alookup_cons_ne _ _ hv] at hcv
            simp [alookup] at hcv
      obtain ⟨hcore, hbound⟩ := astarLoop_inv g s goal fuel _ st hinv0 hloop
      obtain ⟨cg, hcg, hb⟩ := hbound x hx
      have hnn : 0 ≤ cg := hcore.costNonneg goal cg hcg
      rw [hcg] at h
      simp only [Option.getD_some] at h
      obtain ⟨res, hres, hhead, hlast, hchain, hlen⟩ :=
        reconstruct_spec g s goal st hcore (cg.toNat + 1) goal [] cg hcg
          (by omega) (by simp) (by simp)
      rw [hres] at h
      cases h
      have hchainN : p.Chain' (fun u v => v ∈ getNeighbors g u) :=
        hchain.imp (fun a b hab => (hcore.parent b a hab).1)
      have hnodup : p.Nodup := by
        haveI : IsTrans Pos (fun a b : Pos => ∃ ca cb, alookup st.costSoFar a = some ca ∧
            alookup st.costSoFar b = some cb ∧ ca < cb) := by
          constructor
          rintro a b c ⟨ca, cb, ha, hb, h1⟩ ⟨cb2, cc, hb2, hc, h2⟩
          rw [hb] at hb2
          cases hb2
          exact ⟨ca, cc, ha, hc, by omega⟩
        haveI : IsIrrefl Pos (fun a b : Pos => ∃ ca cb, alookup st.costSoFar a = some ca ∧
            alookup st.costSoFar b = some cb ∧ ca < cb) := by
          constructor
          rintro a ⟨ca, ca2, h1, h2, h3⟩
          rw [h1] at h2
          cases h2
          omega
        have hchainC : p.Chain' (fun a b : Pos => ∃ ca cb, alookup st.costSoFar a = some ca ∧
            alookup st.costSoFar b = some cb ∧ ca < cb) :=
          hchain.imp (fun a b hab => by
            obtain ⟨-, cu, cv, hcu, hcv, hlt⟩ := hcore.parent b a hab
            exact ⟨cu, cv, hcu, hcv, hlt⟩)
        exact (List.chain'_iff_pairwise.mp hchainC).nodup
      refine ⟨hhead, hlast, hchainN, hnodup, ?_, ?_⟩
      · exact fun x hxp => chain_mem_open g p s hhead hchainN x hxp
      · intro q hq
        have hq2 := hb q hq
        simp only [List.length_nil] at hlen
        omega

/-! ## C2: A* returns shortest paths -/

/-- C2: for every grid and goal, when `_astar` from Start returns a path,
that path is a 4-connected route through Open cells from Start to the
goal, and its cell count is minimal among all such routes. -/
theorem astar_returns_shortest_path (g : Grid) (fuel : ℕ) (goal : Pos) (p : List Pos)
    (hs : startPos ∈ g.openCells)
    (h : astar g fuel startPos goal = some p) :
    IsRoute g startPos goal p ∧ (∀ x ∈ p, x ∈ g.openCells) ∧
    ∀ q, IsRoute g startPos goal q → p.length ≤ q.length := by
  obtain ⟨h1, h2, h3, h4, h5, h6⟩ := astar_spec g fuel startPos goal p h
  exact ⟨⟨h1, h2, h3⟩, fun x hx => (h5 x hx).elim (fun he => he ▸ hs) id, h6⟩

theorem astar_returns_shortest_path_witness :
    IsRoute (mazeGrid 1 1 {(1, 0), (1, 1), (1, 2)}) startPos (1, 2)
        [(1, 0), (1, 1), (1, 2)] ∧
    (∀ x ∈ [((1 : ℤ), (0 : ℤ)), (1, 1), (1, 2)],
        x ∈ (mazeGrid 1 1 {(1, 0), (1, 1), (1, 2)}).openCells) ∧
    ∀ q, IsRoute (mazeGrid 1 1 {(1, 0), (1, 1), (1, 2)}) startPos (1, 2) q →
      ([((1 : ℤ), (0 : ℤ)), (1, 1), (1, 2)] : List Pos).length ≤ q.length :=
  astar_returns_shortest_path (mazeGrid 1 1 {(1, 0), (1, 1), (1, 2)}) 20 (1, 2)
    [(1, 0), (1, 1), (1, 2)] (by decide) (by decide)

/-! ## C4: unreachable exits are omitted from PathList -/

/-- C4 counterexample: on a grid whose single exit `(0, 1)` is unreachable
from Start `(1, 0)` (the exit cell is open but walled off), `_astar`
returns `None` and `find_all_paths` produces an *empty* PathList: the
unreachable exit is silently skipped (only logged), not recorded with an
unreachable marker, so PathList does not contain exactly one entry per
exit. -/
theorem unreachable_exit_omitted_cex :
    astar (mazeGrid 1 1 {(1, 0), (0, 1)}) 20 startPos (0, 1) = none ∧
    findAllPathsList (mazeGrid 1 1 {(1, 0), (0, 1)}) 20 [(0, 1)] = [] := by
  constructor
  · decide
  · decide

theorem foldl_paths_acc (g : Grid) (fuel : ℕ) :
    ∀ (exits : List Pos) (acc : List (List Pos)),
      exits.foldl (fun acc e =>
        match astar g fuel startPos e with
        | some p => acc ++ [p]
        | none => acc) acc =
      acc ++ exits.filterMap (fun e => astar g fuel startPos e) := by
  intro exits
  induction exits with
  | nil => intro acc; simp
  | cons e rest ih =>
    intro acc
    simp only [List.foldl_cons, List.filterMap_cons]
    cases h : astar g fuel startPos e with
    | none => rw [ih]
    | some p =>
      rw [ih]
      simp

/-- C4 amended: PathList holds, in exit order, exactly one entry for every
exit whose A* search succeeds — a nonempty duplicate-free 4-connected
route from Start to that exit — while an exit whose search fails is
omitted from PathList entirely (no marker is recorded and no exception is
raised; the failure is only logged). -/
theorem find_all_paths_spec (g : Grid) (fuel : ℕ) (exits : List Pos) :
    findAllPathsList g fuel exits =
      exits.filterMap (fun e => astar g fuel startPos e) ∧
    ∀ p ∈ findAllPathsList g fuel exits,
      ∃ e ∈ exits, astar g fuel startPos e = some p ∧
        p.head? = some startPos ∧ p.getLast? = some e ∧
        p.Chain' (fun u v => v ∈ getNeighbors g u) ∧ p.Nodup := by
  have heq : findAllPathsList g fuel exits =
      exits.filterMap (fun e => astar g fuel startPos e) := by
    unfold findAllPathsList
    rw [foldl_paths_acc]
    simp
  refine ⟨heq, ?_⟩
  intro p hp
  rw [heq, List.mem_filterMap] at hp
  obtain ⟨e, he, hae⟩ := hp
  obtain ⟨h1, h2, h3, h4, -, -⟩ := astar_spec g fuel startPos e p hae
  exact ⟨e, he, hae, h1, h2, h3, h4⟩

theorem find_all_paths_spec_witness :
    findAllPathsList (mazeGrid 1 1 {(1, 0), (1, 1), (1, 2)}) 20 [(1, 2)] =
      ([(1, 2)] : List Pos).filterMap
        (fun e => astar (mazeGrid 1 1 {(1, 0), (1, 1), (1, 2)}) 20 startPos e) ∧
    ∀ p ∈ findAllPathsList (mazeGrid 1 1 {(1, 0), (1, 1), (1, 2)}) 20 [(1, 2)],
      ∃ e ∈ ([(1, 2)] : List Pos),
        astar (mazeGrid 1 1 {(1, 0), (1, 1), (1, 2)}) 20 startPos e = some p ∧
        p.head? = some startPos ∧ p.getLast? = some e ∧
        p.Chain' (fun u v => v ∈ getNeighbors (mazeGrid 1 1 {(1, 0), (1, 1), (1, 2)}) u) ∧
        p.Nodup :=
  find_all_paths_spec (mazeGrid 1 1 {(1, 0), (1, 1), (1, 2)}) 20 [(1, 2)]

/-- `_astar` with `goal == start` immediately pops the start, breaks, and
reconstructs the single-cell path `[start]`. -/
theorem astar_self (g : Grid) (fuel : ℕ) (s : Pos) (h : 1 ≤ fuel) :
    astar g fuel s s = some [s] := by
  obtain ⟨f, rfl⟩ : ∃ f, fuel = f + 1 := ⟨fuel - 1, by omega⟩
  unfold astar
  have h1 : astarLoop g s (f + 1) ⟨[(0, s)], [(s, none)], [(s, 0)]⟩ =
      some ⟨[(0, s)], [(s, none)], [(s, 0)]⟩ := by
    rw [astarLoop]
    simp [popMin]
  rw [h1]
  simp [alookup, reconstructPath]

/-! ## DFS carver invariants -/

/-- The strict-interior bound checked by `_dfs` for a candidate room
`(new_x, new_y)`: `0 < new_x < cols-1` and `0 < new_y < rows-1`. -/
def inStrictXY (W H : ℕ) (p : Pos) : Prop :=
  0 < p.1 ∧ p.1 < 2 * (W : ℤ) ∧ 0 < p.2 ∧ p.2 < 2 * (H : ℤ)

instance (W H : ℕ) (p : Pos) : Decidable (inStrictXY W H p) := by
  unfold inStrictXY; infer_instance

/-- The two endpoint rooms of a passage cell `(row, col)` (as `(x, y)`
visited-set keys) both belong to `V`: a passage on an odd row joins the
rooms to its left and right, a passage on an odd column joins the rooms
above and below. -/
def passEndsVisited (V : Finset Pos) (q : Pos) : Prop :=
  (q.1 % 2 = 1 ∧ (q.2 - 1, q.1) ∈ V ∧ (q.2 + 1, q.1) ∈ V) ∨
  (q.2 % 2 = 1 ∧ (q.2, q.1 - 1) ∈ V ∧ (q.2, q.1 + 1) ∈ V)

/-- Every strictly-interior `±2` neighbour of room `p` is in `V`. -/
def Saturated (W H : ℕ) (V : Finset Pos) (p : Pos) : Prop :=
  ∀ d ∈ dfsDirections, inStrictXY W H (p.1 + d.1, p.2 + d.2) →
    (p.1 + d.1, p.2 + d.2) ∈ V

/-- Invariant of a quiescent `_dfs` state: visited cells are rooms; the
open rooms are exactly the visited ones; every open cell is a room or an
interior passage; every open passage joins two visited rooms. -/
structure DfsClean (W H : ℕ) (s : GenState) : Prop where
  vRoom : ∀ p ∈ s.visited, isRoomCell W H (p.2, p.1)
  openRoom : ∀ q, isRoomCell W H q → (q ∈ s.grid ↔ (q.2, q.1) ∈ s.visited)
  gridClass : ∀ q ∈ s.grid, isRoomCell W H q ∨ isPassageCell W H q
  passEnds : ∀ q ∈ s.grid, isPassageCell W H q → passEndsVisited s.visited q

/-- Precondition of a `_dfs(x, y)` call: the quiescent invariant, except
that the passage just carved toward the pending room `(x, y)` may already
reference it; `(x, y)` is an unvisited room; open passages and visited
rooms balance (`#passages = #visited`, the pending room not yet counted). -/
def DfsPre (W H : ℕ) (x y : ℤ) (s : GenState) : Prop :=
  (∀ p ∈ s.visited, isRoomCell W H (p.2, p.1)) ∧
  (∀ q, isRoomCell W H q → (q ∈ s.grid ↔ (q.2, q.1) ∈ s.visited)) ∧
  (∀ q ∈ s.grid, isRoomCell W H q ∨ isPassageCell W H q) ∧
  (∀ q ∈ s.grid, isPassageCell W H q → passEndsVisited (insert (x, y) s.visited) q) ∧
  (x, y) ∉ s.visited ∧ isRoomCell W H (y, x) ∧
  (s.grid.filter (isPassageCell W H)).card = s.visited.card

/-- Postcondition of a completed `_dfs(x, y)` call. -/
def DfsPost (W H : ℕ) (s s2 : GenState) : Prop :=
  DfsClean W H s2 ∧ s.visited ⊆ s2.visited ∧ s.grid ⊆ s2.grid ∧
  (s2.grid.filter (isPassageCell W H)).card + 1 = s2.visited.card ∧
  ∀ p ∈ s2.visited, p ∉ s.visited → Saturated W H s2.visited p

/-- The full specification of `_dfs` at a given fuel level. -/
def DfsSpec (W H : ℕ) (rng : ℕ → List Pos) (fuel : ℕ) : Prop :=
  ∀ x y s s2, DfsPre W H x y s →
    dfsF rng (2 * (H : ℤ) + 1) (2 * (W : ℤ) + 1) fuel x y s = .ok s2 →
    DfsPost W H s s2 ∧ (x, y) ∈ s2.visited

theorem room_not_passage {W H : ℕ} {q : Pos} (h : isRoomCell W H q) :
    ¬ isPassageCell W H q := by
  intro h2
  obtain ⟨h1, h2', -⟩ := h
  obtain ⟨-, -, -, -, h5⟩ := h2
  omega

theorem setCell_ok {rows cols : ℤ} {g g2 : Finset Pos} {p : Pos}
    (h : setCell rows cols g p = some g2) :
    g2 = insert p g ∧ 0 ≤ p.1 ∧ p.1 < rows ∧ 0 ≤ p.2 ∧ p.2 < cols := by
  unfold setCell at h
  split at h
  · rename_i hc
    cases h
    exact ⟨rfl, hc⟩
  · cases h

theorem saturated_mono {W H : ℕ} {V V2 : Finset Pos} {p : Pos}
    (hsub : V ⊆ V2) (h : Saturated W H V p) : Saturated W H V2 p :=
  fun d hd hs => hsub (h d hd hs)

theorem passEnds_mono {V V2 : Finset Pos} {q : Pos} (hsub : V ⊆ V2)
    (h : passEndsVisited V q) : passEndsVisited V2 q := by
  rcases h with ⟨h1, h2, h3⟩ | ⟨h1, h2, h3⟩
  · exact Or.inl ⟨h1, hsub h2, hsub h3⟩
  · exact Or.inr ⟨h1, hsub h2, hsub h3⟩

/-- Carving the passage toward an unvisited in-bounds room re-establishes
the `_dfs` precondition for the recursive call: the passage cell lies
strictly between the current room and the target room, was previously a
wall, and after carving it every open passage joins rooms in
`visited ∪ {target}`. -/
theorem carve_passage (W H : ℕ) (x y dx dy : ℤ) (s : GenState)
    (hd : ((dx, dy) : Pos) ∈ dfsDirections)
    (hclean : DfsClean W H s)
    (hxy : (x, y) ∈ s.visited)
    (hroom : isRoomCell W H (y, x))
    (hstrict : inStrictXY W H (x + dx, y + dy))
    (hnv : (x + dx, y + dy) ∉ s.visited)
    (hcount : (s.grid.filter (isPassageCell W H)).card + 1 = s.visited.card) :
    isPassageCell W H (y + dy / 2, x + dx / 2) ∧
    (y + dy / 2, x + dx / 2) ∉ s.grid ∧
    DfsPre W H (x + dx) (y + dy)
      ⟨insert (y + dy / 2, x + dx / 2) s.grid, s.visited, s.rngIndex⟩ := by
  obtain ⟨hyp, hxp, hy0, hyH, hx0, hxW⟩ := hroom
  dsimp only at hyp hxp hy0 hyH hx0 hxW
  unfold inStrictXY at hstrict
  dsimp only at hstrict
  obtain ⟨hs1, hs2, hs3, hs4⟩ := hstrict
  have hpass : isPassageCell W H (y + dy / 2, x + dx / 2) := by
    fin_cases hd <;>
      · unfold isPassageCell
        dsimp only
        norm_num
        omega
  have hends : passEndsVisited (insert (x + dx, y + dy) s.visited)
      (y + dy / 2, x + dx / 2) := by
    fin_cases hd
    · -- d = (0, 2): vertical passage (y+1, x), ends (x, y) and (x, y+2)
      have hpc : ((y + 2 / 2 : ℤ), (x + 0 / 2 : ℤ)) = (y + 1, x) := by rw [Prod.mk.injEq]; refine ⟨?_, ?_⟩ <;> norm_num <;> omega
      have hnw : ((x + 0 : ℤ), (y + 2 : ℤ)) = (x, y + 2) := by rw [Prod.mk.injEq]; refine ⟨?_, ?_⟩ <;> norm_num <;> omega
      rw [hpc, hnw]
      right
      refine ⟨hxp, ?_, ?_⟩
      · have he : ((x : ℤ), y + 1 - 1) = (x, y) := by rw [Prod.mk.injEq]; omega
        rw [he]
        exact Finset.mem_insert_of_mem hxy
      · have he : ((x : ℤ), y + 1 + 1) = (x, y + 2) := by rw [Prod.mk.injEq]; omega
        rw [he]
        exact Finset.mem_insert_self _ _
    · -- d = (2, 0): horizontal passage (y, x+1), ends (x, y) and (x+2, y)
      have hpc : ((y + 0 / 2 : ℤ), (x + 2 / 2 : ℤ)) = (y, x + 1) := by rw [Prod.mk.injEq]; refine ⟨?_, ?_⟩ <;> norm_num <;> omega
      have hnw : ((x + 2 : ℤ), (y + 0 : ℤ)) = (x + 2, y) := by rw [Prod.mk.injEq]; refine ⟨?_, ?_⟩ <;> norm_num <;> omega
      rw [hpc, hnw]
      left
      refine ⟨hyp, ?_, ?_⟩
      · have he : ((x : ℤ) + 1 - 1, (y : ℤ)) = (x, y) := by rw [Prod.mk.injEq]; omega
        rw [he]
        exact Finset.mem_insert_of_mem hxy
      · have he : ((x : ℤ) + 1 + 1, (y : ℤ)) = (x + 2, y) := by rw [Prod.mk.injEq]; omega
        rw [he]
        exact Finset.mem_insert_self _ _
    · -- d = (0, -2): vertical passage (y-1, x), ends (x, y-2) and (x, y)
      have hpc : ((y + -2 / 2 : ℤ), (x + 0 / 2 : ℤ)) = (y - 1, x) := by rw [Prod.mk.injEq]; refine ⟨?_, ?_⟩ <;> norm_num <;> omega
      have hnw : ((x + 0 : ℤ), (y + -2 : ℤ)) = (x, y - 2) := by rw [Prod.mk.injEq]; refine ⟨?_, ?_⟩ <;> norm_num <;> omega
      rw [hpc, hnw]
      right
      refine ⟨hxp, ?_, ?_⟩
      · have he : ((x : ℤ), y - 1 - 1) = (x, y - 2) := by rw [Prod.mk.injEq]; omega
        rw [he]
        exact Finset.mem_insert_self _ _
      · have he : ((x : ℤ), y - 1 + 1) = (x, y) := by rw [Prod.mk.injEq]; omega
        rw [he]
        exact Finset.mem_insert_of_mem hxy
    · -- d = (-2, 0): horizontal passage (y, x-1), ends (x-2, y) and (x, y)
      have hpc : ((y + 0 / 2 : ℤ), (x + -2 / 2 : ℤ)) = (y, x - 1) := by rw [Prod.mk.injEq]; refine ⟨?_, ?_⟩ <;> norm_num <;> omega
      have hnw : ((x + -2 : ℤ), (y + 0 : ℤ)) = (x - 2, y) := by rw [Prod.mk.injEq]; refine ⟨?_, ?_⟩ <;> norm_num <;> omega
      rw [hpc, hnw]
      left
      refine ⟨hyp, ?_, ?_⟩
      · have he : ((x : ℤ) - 1 - 1, (y : ℤ)) = (x - 2, y) := by rw [Prod.mk.injEq]; omega
        rw [he]
        exact Finset.mem_insert_self _ _
      · have he : ((x : ℤ) - 1 + 1, (y : ℤ)) = (x, y) := by rw [Prod.mk.injEq]; omega
        rw [he]
        exact Finset.mem_insert_of_mem hxy
  have hfresh : (y + dy / 2, x + dx / 2) ∉ s.grid := by
    intro hmem
    have hp2 := hclean.passEnds _ hmem hpass
    fin_cases hd
    · rcases hp2 with ⟨hpar, -, -⟩ | ⟨-, -, h2⟩
      · dsimp only at hpar
        norm_num at hpar
        omega
      · dsimp only at h2
        have he : ((x + 0 / 2 : ℤ), (y + 2 / 2 + 1 : ℤ)) = (x + 0, y + 2) := by
          rw [Prod.mk.injEq]
          refine ⟨?_, ?_⟩ <;> norm_num <;> omega
        rw [he] at h2
        exact hnv h2
    · rcases hp2 with ⟨-, -, h2⟩ | ⟨hpar, -, -⟩
      · dsimp only at h2
        have he : ((x + 2 / 2 + 1 : ℤ), (y + 0 / 2 : ℤ)) = (x + 2, y + 0) := by
          rw [Prod.mk.injEq]
          refine ⟨?_, ?_⟩ <;> norm_num <;> omega
        rw [he] at h2
        exact hnv h2
      · dsimp only at hpar
        norm_num at hpar
        omega
    · rcases hp2 with ⟨hpar, -, -⟩ | ⟨-, h1, -⟩
      · dsimp only at hpar
        norm_num at hpar
        omega
      · dsimp only at h1
        have he : ((x + 0 / 2 : ℤ), (y + -2 / 2 - 1 : ℤ)) = (x + 0, y + -2) := by
          rw [Prod.mk.injEq]
          refine ⟨?_, ?_⟩ <;> norm_num <;> omega
        rw [he] at h1
        exact hnv h1
    · rcases hp2 with ⟨-, h1, -⟩ | ⟨hpar, -, -⟩
      · dsimp only at h1
        have he : ((x + -2 / 2 - 1 : ℤ), (y + 0 / 2 : ℤ)) = (x + -2, y + 0) := by
          rw [Prod.mk.injEq]
          refine ⟨?_, ?_⟩ <;> norm_num <;> omega
        rw [he] at h1
        exact hnv h1
      · dsimp only at hpar
        norm_num at hpar
        omega
  refine ⟨hpass, hfresh, hclean.vRoom, ?_, ?_, ?_, hnv, ?_, ?_⟩
  · intro q hq
    dsimp only
    rw [Finset.mem_insert]
    constructor
    · rintro (rfl | hg)
      · exact absurd hpass (room_not_passage hq)
      · exact (hclean.openRoom q hq).mp hg
    · intro hv
      exact Or.inr ((hclean.openRoom q hq).mpr hv)
  · intro q hq
    dsimp only at hq
    rcases Finset.mem_insert.mp hq with rfl | hg
    · exact Or.inr hpass
    · exact hclean.gridClass q hg
  · intro q hq hqp
    dsimp only at hq
    rcases Finset.mem_insert.mp hq with rfl | hg
    · exact hends
    · exact passEnds_mono (Finset.subset_insert _ _) (hclean.passEnds q hg hqp)
  · fin_cases hd <;>
      · unfold isRoomCell
        dsimp only
        omega
  · dsimp only
    rw [Finset.filter_insert, if_pos hpass,
      Finset.card_insert_of_not_mem (fun hmem => hfresh (Finset.mem_of_mem_filter _ hmem))]
    omega

/-- `_dfs`'s first two actions (`visited.add((x, y))`, `maze[y, x] = 0`)
turn the call precondition into the quiescent invariant, with the open
passages now one fewer than the visited rooms. -/
theorem visit_room (W H : ℕ) (x y : ℤ) (s : GenState) (k : ℕ)
    (hpre : DfsPre W H x y s) :
    DfsClean W H ⟨insert (y, x) s.grid, insert (x, y) s.visited, k⟩ ∧
    ((insert (y, x) s.grid).filter (isPassageCell W H)).card + 1 =
      (insert (x, y) s.visited).card := by
  obtain ⟨hv, ho, hg, hp, hnv, hroom, hcount⟩ := hpre
  have hrnp : (y, x) ∉ s.grid := by
    intro hmem
    have := (ho (y, x) hroom).mp hmem
    exact hnv this
  constructor
  · constructor
    · intro p hp2
      rcases Finset.mem_insert.mp hp2 with rfl | hp3
      · exact hroom
      · exact hv p hp3
    · intro q hq
      rw [Finset.mem_insert, Finset.mem_insert]
      constructor
      · rintro (rfl | hg2)
        · exact Or.inl rfl
        · exact Or.inr ((ho q hq).mp hg2)
      · rintro (hqe | hv2)
        · left
          rw [Prod.ext_iff] at hqe ⊢
          exact ⟨hqe.2, hqe.1⟩
        · exact Or.inr ((ho q hq).mpr hv2)
    · intro q hq
      rcases Finset.mem_insert.mp hq with rfl | hq2
      · exact Or.inl hroom
      · exact hg q hq2
    · intro q hq hqp
      rcases Finset.mem_insert.mp hq with rfl | hq2
      · exact absurd hqp (room_not_passage hroom)
      · exact hp q hq2 hqp
  · rw [Finset.filter_insert, if_neg (room_not_passage hroom),
      Finset.card_insert_of_not_mem hnv]
    omega

/-- The direction loop of `_dfs`: given the recursive-call specification
at the current fuel level, processing any suffix of the shuffled
direction list preserves the quiescent invariant and the passage/room
balance, visits every in-bounds unvisited target of a processed
direction, and leaves every newly visited room saturated. -/
theorem goAux_spec (W H : ℕ) (rng : ℕ → List Pos) (fuel : ℕ)
    (hstep : DfsSpec W H rng fuel) :
    ∀ (dirs : List Pos) (x y : ℤ) (s s2 : GenState),
      (∀ d ∈ dirs, d ∈ dfsDirections) →
      DfsClean W H s →
      (x, y) ∈ s.visited →
      isRoomCell W H (y, x) →
      (s.grid.filter (isPassageCell W H)).card + 1 = s.visited.card →
      goAux (dfsF rng (2 * (H : ℤ) + 1) (2 * (W : ℤ) + 1) fuel)
        (2 * (H : ℤ) + 1) (2 * (W : ℤ) + 1) x y dirs s = .ok s2 →
      DfsClean W H s2 ∧ s.visited ⊆ s2.visited ∧ s.grid ⊆ s2.grid ∧
      (s2.grid.filter (isPassageCell W H)).card + 1 = s2.visited.card ∧
      (∀ d ∈ dirs, inStrictXY W H (x + d.1, y + d.2) →
        (x + d.1, y + d.2) ∈ s2.visited) ∧
      (∀ p ∈ s2.visited, p ∉ s.visited → Saturated W H s2.visited p) := by
  intro dirs
  induction dirs with
  | nil =>
    intro x y s s2 _ hclean hxy hroom hcount h
    rw [goAux] at h
    cases h
    refine ⟨hclean, Finset.Subset.refl _, Finset.Subset.refl _, hcount, by simp, ?_⟩
    intro p hp hnp
    exact absurd hp hnp
  | cons d ds ih =>
    intro x y s s2 hdirs hclean hxy hroom hcount h
    have hd4 : d ∈ dfsDirections := hdirs d (List.mem_cons_self _ _)
    rw [goAux] at h
    split at h
    · rename_i hc
      obtain ⟨hc1, hc2, hc3, hc4, hc5⟩ := hc
      have hstrict : inStrictXY W H (x + d.1, y + d.2) := by
        unfold inStrictXY
        dsimp only
        omega
      split at h
      · cases h
      · rename_i g2 hset
        obtain ⟨hg2, -⟩ := setCell_ok hset
        subst hg2
        split at h
        · cases h
        · rename_i s3 hrec
          have hd' : ((d.1, d.2) : Pos) ∈ dfsDirections := by
            rw [Prod.mk.eta]
            exact hd4
          obtain ⟨hpass, hfresh, hpre2⟩ := carve_passage W H x y d.1 d.2 s hd'
            hclean hxy hroom hstrict hc5 hcount
          obtain ⟨⟨clean3, vsub3, gsub3, count3, sat3⟩, hmem3⟩ :=
            hstep (x + d.1) (y + d.2) _ s3 hpre2 hrec
          obtain ⟨clean2, vsub2, gsub2, count2, dirs2, sat2⟩ :=
            ih x y s3 s2 (fun u hu => hdirs u (List.mem_cons_of_mem _ hu))
              clean3 (vsub3 hxy) hroom count3 h
          refine ⟨clean2, ?_, ?_, count2, ?_, ?_⟩
          · exact Finset.Subset.trans vsub3 vsub2
          · exact Finset.Subset.trans
              (Finset.Subset.trans (Finset.subset_insert _ _) gsub3) gsub2
          · intro e he hse
            rcases List.mem_cons.mp he with rfl | he2
            · exact vsub2 hmem3
            · exact dirs2 e he2 hse
          · intro p hp hnp
            by_cases hp3 : p ∈ s3.visited
            · exact saturated_mono vsub2 (sat3 p hp3 hnp)
            · exact sat2 p hp hp3
    · rename_i hc
      push_neg at hc
      obtain ⟨clean2, vsub2, gsub2, count2, dirs2, sat2⟩ :=
        ih x y s s2 (fun u hu => hdirs u (List.mem_cons_of_mem _ hu))
          hclean hxy hroom hcount h
      refine ⟨clean2, vsub2, gsub2, count2, ?_, sat2⟩
      intro e he hse
      rcases List.mem_cons.mp he with rfl | he2
      · obtain ⟨h1, h2, h3, h4⟩ := hse
        have hv : (x + e.1, y + e.2) ∈ s.visited := by
          apply hc <;> omega
        exact vsub2 hv
      · exact dirs2 e he2 hse

/-- Membership characterization of the boundary scan `possible_exits`. -/
theorem possibleExits_cases {W H : ℕ} {g : Finset Pos} {e : Pos}
    (h : e ∈ possibleExits W H g) :
    (∃ j : ℕ, j < H ∧ e = ((2 * j + 1 : ℤ), 2 * (W : ℤ)) ∧
      ((2 * j + 1 : ℤ), 2 * (W : ℤ) - 1) ∈ g) ∨
    (∃ j : ℕ, j < H ∧ e = ((2 * j + 1 : ℤ), 0) ∧ ((2 * j + 1 : ℤ), 1) ∈ g) ∨
    (∃ i : ℕ, i < W ∧ e = (2 * (H : ℤ), (2 * i + 1 : ℤ)) ∧
      (2 * (H : ℤ) - 1, (2 * i + 1 : ℤ)) ∈ g) ∨
    (∃ i : ℕ, i < W ∧ e = (0, (2 * i + 1 : ℤ)) ∧ ((1 : ℤ), (2 * i + 1 : ℤ)) ∈ g) := by
  unfold possibleExits at h
  rw [List.mem_append] at h
  rcases h with h | h
  · unfold edgeScanLR at h
    rw [List.mem_flatMap] at h
    obtain ⟨j, hj, hmem⟩ := h
    rw [List.mem_range] at hj
    rw [List.mem_append] at hmem
    rcases hmem with hmem | hmem
    · split at hmem
      · rename_i hopen
        simp at hmem
        exact Or.inl ⟨j, hj, hmem, hopen⟩
      · simp at hmem
    · split at hmem
      · rename_i hopen
        simp at hmem
        exact Or.inr (Or.inl ⟨j, hj, hmem, hopen⟩)
      · simp at hmem
  · unfold edgeScanTB at h
    rw [List.mem_flatMap] at h
    obtain ⟨i, hi, hmem⟩ := h
    rw [List.mem_range] at hi
    rw [List.mem_append] at hmem
    rcases hmem with hmem | hmem
    · split at hmem
      · rename_i hopen
        simp at hmem
        exact Or.inr (Or.inr (Or.inl ⟨i, hi, hmem, hopen⟩))
      · simp at hmem
    · split at hmem
      · rename_i hopen
        simp at hmem
        exact Or.inr (Or.inr (Or.inr ⟨i, hi, hmem, hopen⟩))
      · simp at hmem

theorem edgeScanLR_shape {W H : ℕ} {g : Finset Pos} {a : Pos}
    (h : a ∈ edgeScanLR W H g) :
    (∃ j : ℕ, j < H ∧ a.1 = 2 * (j : ℤ) + 1) ∧ (a.2 = 2 * (W : ℤ) ∨ a.2 = 0) := by
  unfold edgeScanLR at h
  rw [List.mem_flatMap] at h
  obtain ⟨j, hj, hmem⟩ := h
  rw [List.mem_range] at hj
  rw [List.mem_append] at hmem
  constructor
  · refine ⟨j, hj, ?_⟩
    rcases hmem with h | h <;> split at h <;> simp at h <;> simp [h]
  · rcases hmem with h | h <;> split at h <;> simp at h <;> simp [h]

theorem edgeScanTB_shape {W H : ℕ} {g : Finset Pos} {a : Pos}
    (h : a ∈ edgeScanTB W H g) :
    (∃ i : ℕ, i < W ∧ a.2 = 2 * (i : ℤ) + 1) ∧ (a.1 = 2 * (H : ℤ) ∨ a.1 = 0) := by
  unfold edgeScanTB at h
  rw [List.mem_flatMap] at h
  obtain ⟨i, hi, hmem⟩ := h
  rw [List.mem_range] at hi
  rw [List.mem_append] at hmem
  constructor
  · refine ⟨i, hi, ?_⟩
    rcases hmem with h | h <;> split at h <;> simp at h <;> simp [h]
  · rcases hmem with h | h <;> split at h <;> simp at h <;> simp [h]

theorem edgeScanLR_nodup (W H : ℕ) (hW : 1 ≤ W) (g : Finset Pos) :
    (edgeScanLR W H g).Nodup := by
  unfold edgeScanLR
  rw [List.nodup_flatMap]
  constructor
  · intro j hj
    dsimp only
    split_ifs <;> simp <;> omega
  · refine List.Pairwise.imp ?_ (List.pairwise_lt_range H)
    intro i j hij a hai haj
    have h1 : a.1 = 2 * (i : ℤ) + 1 := by
      rw [List.mem_append] at hai
      rcases hai with h | h <;> split at h <;> simp at h <;> simp [h]
    have h2 : a.1 = 2 * (j : ℤ) + 1 := by
      rw [List.mem_append] at haj
      rcases haj with h | h <;> split at h <;> simp at h <;> simp [h]
    omega

theorem edgeScanTB_nodup (W H : ℕ) (hH : 1 ≤ H) (g : Finset Pos) :
    (edgeScanTB W H g).Nodup := by
  unfold edgeScanTB
  rw [List.nodup_flatMap]
  constructor
  · intro i hi
    dsimp only
    split_ifs <;> simp <;> omega
  · refine List.Pairwise.imp ?_ (List.pairwise_lt_range W)
    intro i j hij a hai haj
    have h1 : a.2 = 2 * (i : ℤ) + 1 := by
      rw [List.mem_append] at hai
      rcases hai with h | h <;> split at h <;> simp at h <;> simp [h]
    have h2 : a.2 = 2 * (j : ℤ) + 1 := by
      rw [List.mem_append] at haj
      rcases haj with h | h <;> split at h <;> simp at h <;> simp [h]
    omega

/-- The candidate pool collected by `_generate_exits` has no duplicates. -/
theorem possibleExits_nodup (W H : ℕ) (hW : 1 ≤ W) (hH : 1 ≤ H) (g : Finset Pos) :
    (possibleExits W H g).Nodup := by
  unfold possibleExits
  rw [List.nodup_append]
  refine ⟨edgeScanLR_nodup W H hW g, edgeScanTB_nodup W H hH g, ?_⟩
  intro a haLR haTB
  obtain ⟨⟨j, hj, h1⟩, h2⟩ := edgeScanLR_shape haLR
  obtain ⟨⟨i, hi, h3⟩, h4⟩ := edgeScanTB_shape haTB
  omega

theorem carveCells_mem {rows cols : ℤ} :
    ∀ (l : List Pos) (g g2 : Finset Pos),
      carveCells rows cols l g = some g2 → ∀ q, (q ∈ g2 ↔ q ∈ g ∨ q ∈ l) := by
  intro l
  induction l with
  | nil =>
    intro g g2 h q
    rw [carveCells] at h
    cases h
    simp
  | cons p ps ih =>
    intro g g2 h q
    rw [carveCells] at h
    split at h
    · cases h
    · rename_i ga hset
      obtain ⟨hga, -⟩ := setCell_ok hset
      subst hga
      rw [ih _ _ h q, Finset.mem_insert]
      constructor
      · rintro ((rfl | hq) | hq)
        · simp
        · exact Or.inl hq
        · simp [hq]
      · rintro (hq | hq)
        · exact Or.inl (Or.inr hq)
        · rcases List.mem_cons.mp hq with rfl | hq2
          · exact Or.inl (Or.inl rfl)
          · exact Or.inr hq2

/-- All room cells, keyed `(x, y)` as in `self.visited`. -/
def roomFinsetXY (W H : ℕ) : Finset Pos :=
  ((Finset.range W) ×ˢ (Finset.range H)).image
    (fun ij => ((2 * ij.1 + 1 : ℤ), (2 * ij.2 + 1 : ℤ)))

/-- All room cells, keyed `(row, col)` as in the grid. -/
def roomFinsetGrid (W H : ℕ) : Finset Pos :=
  ((Finset.range H) ×ˢ (Finset.range W)).image
    (fun ij => ((2 * ij.1 + 1 : ℤ), (2 * ij.2 + 1 : ℤ)))

theorem mem_roomFinsetXY {W H : ℕ} {p : Pos} :
    p ∈ roomFinsetXY W H ↔ isRoomCell W H (p.2, p.1) := by
  unfold roomFinsetXY isRoomCell
  rw [Finset.mem_image]
  constructor
  · rintro ⟨⟨i, j⟩, hij, rfl⟩
    rw [Finset.mem_product, Finset.mem_range, Finset.mem_range] at hij
    dsimp only
    omega
  · intro h
    dsimp only at h
    refine ⟨(((p.1 - 1) / 2).toNat, ((p.2 - 1) / 2).toNat), ?_, ?_⟩
    · rw [Finset.mem_product, Finset.mem_range, Finset.mem_range]
      constructor <;> omega
    · rw [Prod.ext_iff]
      dsimp only
      constructor <;> omega

theorem mem_roomFinsetGrid {W H : ℕ} {q : Pos} :
    q ∈ roomFinsetGrid W H ↔ isRoomCell W H q := by
  unfold roomFinsetGrid isRoomCell
  rw [Finset.mem_image]
  constructor
  · rintro ⟨⟨j, i⟩, hij, rfl⟩
    rw [Finset.mem_product, Finset.mem_range, Finset.mem_range] at hij
    dsimp only
    omega
  · intro h
    refine ⟨(((q.1 - 1) / 2).toNat, ((q.2 - 1) / 2).toNat), ?_, ?_⟩
    · rw [Finset.mem_product, Finset.mem_range, Finset.mem_range]
      constructor <;> omega
    · rw [Prod.ext_iff]
      dsimp only
      constructor <;> omega

theorem roomFinsetXY_card (W H : ℕ) : (roomFinsetXY W H).card = W * H := by
  unfold roomFinsetXY
  rw [Finset.card_image_of_injOn, Finset.card_product, Finset.card_range, Finset.card_range]
  intro a _ b _ hab
  simp only [Prod.mk.injEq] at hab
  obtain ⟨h1, h2⟩ := hab
  rw [Prod.ext_iff]
  omega

theorem roomFinsetGrid_card (W H : ℕ) : (roomFinsetGrid W H).card = H * W := by
  unfold roomFinsetGrid
  rw [Finset.card_image_of_injOn, Finset.card_product, Finset.card_range, Finset.card_range]
  intro a _ b _ hab
  simp only [Prod.mk.injEq] at hab
  obtain ⟨h1, h2⟩ := hab
  rw [Prod.ext_iff]
  omega

/-- Any set of rooms containing `(1, 1)` and closed under in-bounds `±2`
steps contains every room: the room grid graph is connected. -/
theorem closure_all_rooms (W H : ℕ) (hW : 1 ≤ W) (hH : 1 ≤ H) (V : Finset Pos)
    (h11 : ((1 : ℤ), (1 : ℤ)) ∈ V)
    (hsat : ∀ p ∈ V, Saturated W H V p) :
    ∀ (i j : ℕ), i < W → j < H → ((2 * i + 1 : ℤ), (2 * j + 1 : ℤ)) ∈ V := by
  have hcol : ∀ j : ℕ, j < H → ((1 : ℤ), (2 * j + 1 : ℤ)) ∈ V := by
    intro j
    induction j with
    | zero =>
      intro _
      have he : ((1 : ℤ), (2 * (0 : ℕ) + 1 : ℤ)) = ((1 : ℤ), (1 : ℤ)) := by
        rw [Prod.ext_iff]
        constructor <;> push_cast <;> omega
      rw [he]
      exact h11
    | succ j ihj =>
      intro hj
      have hmem := ihj (by omega)
      have hsp := hsat _ hmem ((0 : ℤ), (2 : ℤ)) (by decide) ?_
      · have he : ((1 : ℤ) + 0, ((2 * (j : ℕ) + 1 : ℤ)) + 2) =
            ((1 : ℤ), (2 * (j + 1 : ℕ) + 1 : ℤ)) := by
          rw [Prod.ext_iff]
          constructor <;> push_cast <;> omega
        rw [he] at hsp
        exact hsp
      · unfold inStrictXY
        refine ⟨?_, ?_, ?_, ?_⟩ <;> norm_num <;> push_cast <;> omega
  intro i
  induction i with
  | zero =>
    intro j h0 hj
    have he : ((2 * (0 : ℕ) + 1 : ℤ), (2 * j + 1 : ℤ)) = ((1 : ℤ), (2 * j + 1 : ℤ)) := by
      rw [Prod.ext_iff]
      constructor <;> push_cast <;> omega
    rw [he]
    exact hcol j hj
  | succ i ihi =>
    intro j hi hj
    have hmem := ihi j (by omega) hj
    have hsp := hsat _ hmem ((2 : ℤ), (0 : ℤ)) (by decide) ?_
    · have he : (((2 * (i : ℕ) + 1 : ℤ)) + 2, ((2 * (j : ℕ) + 1 : ℤ)) + 0) =
          ((2 * (i + 1 : ℕ) + 1 : ℤ), (2 * (j : ℕ) + 1 : ℤ)) := by
        rw [Prod.ext_iff]
        constructor <;> push_cast <;> omega
      rw [he] at hsp
      exact hsp
    · unfold inStrictXY
      refine ⟨?_, ?_, ?_, ?_⟩ <;> norm_num <;> push_cast <;> omega

/-- `_dfs` satisfies its specification at every fuel level: from the call
precondition, a successful run yields the quiescent invariant, grows the
visited set and grid monotonically, visits the called room, keeps
`#open passages + 1 = #visited rooms`, and saturates every newly visited
room (all its in-bounds `±2` neighbours are visited). -/
theorem dfsF_spec_all (W H : ℕ) (rng : ℕ → List Pos)
    (hrng : ∀ n, (rng n).Perm dfsDirections) :
    ∀ fuel, DfsSpec W H rng fuel := by
  intro fuel
  induction fuel with
  | zero =>
    intro x y s s2 hpre h
    rw [dfsF] at h
    cases h
  | succ fuel ih =>
    intro x y s s2 hpre h
    rw [dfsF] at h
    split at h
    · cases h
    · rename_i g1 hset
      obtain ⟨hg1, -⟩ := setCell_ok hset
      subst hg1
      obtain ⟨clean1, count1⟩ := visit_room W H x y s (s.rngIndex + 1) hpre
      have hroom : isRoomCell W H (y, x) := hpre.2.2.2.2.2.1
      have hdirs : ∀ d ∈ rng s.rngIndex, d ∈ dfsDirections :=
        fun d hd => (hrng s.rngIndex).mem_iff.mp hd
      obtain ⟨clean2, vsub2, gsub2, count2, dirs2, sat2⟩ :=
        goAux_spec W H rng fuel ih (rng s.rngIndex) x y
          ⟨insert (y, x) s.grid, insert (x, y) s.visited, s.rngIndex + 1⟩ s2
          hdirs clean1 (Finset.mem_insert_self _ _) hroom count1 h
      have hxyv : (x, y) ∈ s2.visited := vsub2 (Finset.mem_insert_self _ _)
      refine ⟨⟨clean2, ?_, ?_, count2, ?_⟩, hxyv⟩
      · exact Finset.Subset.trans (Finset.subset_insert _ _) vsub2
      · exact Finset.Subset.trans (Finset.subset_insert _ _) gsub2
      · intro p hp hnp
        by_cases hpxy : p = (x, y)
        · subst hpxy
          intro e he hse
          exact dirs2 e ((hrng s.rngIndex).mem_iff.mpr he) hse
        · apply sat2 p hp
          intro hmem
          rcases Finset.mem_insert.mp hmem with he | he
          · exact hpxy he
          · exact hnp he

theorem dfsPre_init (W H : ℕ) (hW : 1 ≤ W) (hH : 1 ≤ H) :
    DfsPre W H 1 1 ⟨∅, ∅, 0⟩ := by
  refine ⟨?_, ?_, ?_, ?_, ?_, ?_, ?_⟩
  · intro p hp
    simp at hp
  · intro q _
    simp
  · intro q hq
    simp at hq
  · intro q hq
    simp at hq
  · simp
  · unfold isRoomCell
    refine ⟨?_, ?_, ?_, ?_, ?_, ?_⟩ <;> norm_num <;> push_cast <;> omega
  · simp

/-- A completed top-level carving run (`_dfs(1, 1)` from the all-wall
grid): the quiescent invariant holds, the visited set is exactly the set
of all rooms, and the number of open passages is `W*H - 1`. -/
theorem dfs_run_spec (W H : ℕ) (hW : 1 ≤ W) (hH : 1 ≤ H) (rng : ℕ → List Pos)
    (hrng : ∀ n, (rng n).Perm dfsDirections) (fuel : ℕ) (s2 : GenState)
    (h : dfsF rng (2 * (H : ℤ) + 1) (2 * (W : ℤ) + 1) fuel 1 1 ⟨∅, ∅, 0⟩ = .ok s2) :
    DfsClean W H s2 ∧
    s2.visited = roomFinsetXY W H ∧
    (s2.grid.filter (isPassageCell W H)).card + 1 = W * H := by
  obtain ⟨⟨clean2, -, -, count2, sat2⟩, -⟩ :=
    dfsF_spec_all W H rng hrng fuel 1 1 _ s2 (dfsPre_init W H hW hH) h
  have hsat : ∀ p ∈ s2.visited, Saturated W H s2.visited p := by
    intro p hp
    exact sat2 p hp (by simp)
  have h11 : ((1 : ℤ), (1 : ℤ)) ∈ s2.visited := by
    obtain ⟨-, hmem⟩ :=
      dfsF_spec_all W H rng hrng fuel 1 1 _ s2 (dfsPre_init W H hW hH) h
    exact hmem
  have hveq : s2.visited = roomFinsetXY W H := by
    apply Finset.Subset.antisymm
    · intro p hp
      exact mem_roomFinsetXY.mpr (clean2.vRoom p hp)
    · intro p hp
      rw [mem_roomFinsetXY] at hp
      obtain ⟨h1, h2, h3, h4, h5, h6⟩ := hp
      have := closure_all_rooms W H hW hH s2.visited h11 hsat
        ((p.1 - 1) / 2).toNat ((p.2 - 1) / 2).toNat (by omega) (by omega)
      have he : ((2 * (((p.1 - 1) / 2).toNat : ℤ) + 1 : ℤ),
          (2 * (((p.2 - 1) / 2).toNat : ℤ) + 1 : ℤ)) = p := by
        rw [Prod.ext_iff]
        constructor <;> push_cast <;> omega
      rw [he] at this
      exact this
  refine ⟨clean2, hveq, ?_⟩
  rw [count2, hveq, roomFinsetXY_card]

/-- Decomposition of a successful `generate_maze` run into its stages:
the carving result, the entrance write, the sampled exits, and the fact
that the final grid is the entrance-carved grid plus the exit cells. -/
theorem generate_parts {W H numExits : ℕ} {rng : ℕ → List Pos}
    {sample : List Pos → ℕ → List Pos} {fuel : ℕ} {m : MazeOut}
    (hgen : generateMaze W H numExits rng sample fuel = .ok m) :
    ∃ s2, dfsF rng (2 * (H : ℤ) + 1) (2 * (W : ℤ) + 1) fuel 1 1 ⟨∅, ∅, 0⟩ = .ok s2 ∧
      m.exits = sample (possibleExits W H (insert ((1 : ℤ), (0 : ℤ)) s2.grid))
        (min numExits (possibleExits W H (insert ((1 : ℤ), (0 : ℤ)) s2.grid)).length) ∧
      (∀ q, q ∈ m.grid ↔ (q ∈ insert ((1 : ℤ), (0 : ℤ)) s2.grid ∨ q ∈ m.exits)) := by
  unfold generateMaze at hgen
  dsimp only at hgen
  split at hgen
  · cases hgen
  · rename_i s2 hdfs
    split at hgen
    · cases hgen
    · rename_i g1 hset
      obtain ⟨hg1, -⟩ := setCell_ok hset
      subst hg1
      split at hgen
      · cases hgen
      · rename_i g2 hcarve
        cases hgen
        exact ⟨s2, hdfs, rfl, carveCells_mem _ _ _ hcarve⟩

instance {ε α : Type} [DecidableEq ε] [DecidableEq α] : DecidableEq (Except ε α)
  | .error a, .error b =>
    decidable_of_iff (a = b) ⟨fun h => by rw [h], fun h => by cases h; rfl⟩
  | .error _, .ok _ => isFalse (fun hc => by cases hc)
  | .ok _, .error _ => isFalse (fun hc => by cases hc)
  | .ok a, .ok b =>
    decidable_of_iff (a = b) ⟨fun h => by rw [h], fun h => by cases h; rfl⟩

theorem boundary_not_room_passage {W H : ℕ} {q : Pos}
    (hb : q.1 = 0 ∨ q.1 = 2 * (H : ℤ) ∨ q.2 = 0 ∨ q.2 = 2 * (W : ℤ)) :
    ¬ isRoomCell W H q ∧ ¬ isPassageCell W H q := by
  constructor
  · intro hc
    obtain ⟨h1, h2, h3, h4, h5, h6⟩ := hc
    omega
  · intro hc
    obtain ⟨h1, h2, h3, h4, h5⟩ := hc
    omega

theorem possibleExits_boundary {W H : ℕ} {g : Finset Pos} {e : Pos}
    (h : e ∈ possibleExits W H g) :
    e.1 = 0 ∨ e.1 = 2 * (H : ℤ) ∨ e.2 = 0 ∨ e.2 = 2 * (W : ℤ) := by
  unfold possibleExits at h
  rw [List.mem_append] at h
  rcases h with h | h
  · rcases (edgeScanLR_shape h).2 with h2 | h2
    · exact Or.inr (Or.inr (Or.inr h2))
    · exact Or.inr (Or.inr (Or.inl h2))
  · rcases (edgeScanTB_shape h).2 with h2 | h2
    · exact Or.inr (Or.inl h2)
    · exact Or.inl h2

theorem subperm_nodup {l1 l2 : List Pos} (h : List.Subperm l1 l2)
    (h2 : l2.Nodup) : l1.Nodup := by
  obtain ⟨t, hperm, hsub⟩ := h
  exact hperm.nodup_iff.mp (h2.sublist hsub)

/-! ## C1: the carved maze is a perfect maze -/

/-- C1: for `W, H ≥ 1` and every shuffle outcome, after `generate_maze`
completes every room cell of the `(2H+1) × (2W+1)` grid is Open, and the
open rooms and open passage cells (cells strictly between two adjacent
rooms, per the glossary; the entrance and the exits lie on the perimeter
and are not passages between rooms) form a tree: `#open passages =
#open rooms - 1 = W*H - 1`. -/
theorem generated_maze_perfect (W H numExits : ℕ) (rng : ℕ → List Pos)
    (sample : List Pos → ℕ → List Pos) (fuel : ℕ) (m : MazeOut)
    (hW : 1 ≤ W) (hH : 1 ≤ H)
    (hrng : ∀ n, (rng n).Perm dfsDirections)
    (hsample : SampleSpec sample)
    (hgen : generateMaze W H numExits rng sample fuel = .ok m) :
    (∀ q, isRoomCell W H q → q ∈ m.grid) ∧
    (m.grid.filter (isRoomCell W H)).card = W * H ∧
    (m.grid.filter (isPassageCell W H)).card + 1 =
      (m.grid.filter (isRoomCell W H)).card := by
  obtain ⟨s2, hdfs, hexits, hmem⟩ := generate_parts hgen
  obtain ⟨clean2, hveq, hcount⟩ := dfs_run_spec W H hW hH rng hrng fuel s2 hdfs
  have hstart_nrp := boundary_not_room_passage (W := W) (H := H)
    (q := ((1 : ℤ), (0 : ℤ))) (Or.inr (Or.inr (Or.inl rfl)))
  have hex_nrp : ∀ e ∈ m.exits, ¬ isRoomCell W H e ∧ ¬ isPassageCell W H e := by
    intro e he
    have hepool : e ∈ possibleExits W H (insert ((1 : ℤ), (0 : ℤ)) s2.grid) := by
      rw [hexits] at he
      exact (hsample _ _).1.subset he
    exact boundary_not_room_passage (possibleExits_boundary hepool)
  have hstable : ∀ q, (isRoomCell W H q ∨ isPassageCell W H q) →
      (q ∈ m.grid ↔ q ∈ s2.grid) := by
    intro q hq
    rw [hmem q, Finset.mem_insert]
    constructor
    · rintro ((rfl | hs) | hex)
      · rcases hq with hq | hq
        · exact absurd hq hstart_nrp.1
        · exact absurd hq hstart_nrp.2
      · exact hs
      · rcases hq with hq | hq
        · exact absurd hq (hex_nrp q hex).1
        · exact absurd hq (hex_nrp q hex).2
    · intro hs
      exact Or.inl (Or.inr hs)
  have hallrooms : ∀ q, isRoomCell W H q → q ∈ s2.grid := by
    intro q hq
    rw [clean2.openRoom q hq, hveq, mem_roomFinsetXY]
    dsimp only
    rw [Prod.mk.eta]
    exact hq
  have hfr : m.grid.filter (isRoomCell W H) = roomFinsetGrid W H := by
    ext q
    rw [Finset.mem_filter, mem_roomFinsetGrid]
    constructor
    · exact fun h => h.2
    · intro hq
      exact ⟨(hstable q (Or.inl hq)).mpr (hallrooms q hq), hq⟩
  have hfp : m.grid.filter (isPassageCell W H) = s2.grid.filter (isPassageCell W H) := by
    ext q
    rw [Finset.mem_filter, Finset.mem_filter]
    constructor
    · rintro ⟨h1, h2⟩
      exact ⟨(hstable q (Or.inr h2)).mp h1, h2⟩
    · rintro ⟨h1, h2⟩
      exact ⟨(hstable q (Or.inr h2)).mpr h1, h2⟩
  refine ⟨?_, ?_, ?_⟩
  · intro q hq
    exact (hstable q (Or.inl hq)).mpr (hallrooms q hq)
  · rw [hfr, roomFinsetGrid_card]
    exact Nat.mul_comm H W
  · rw [hfp, hfr, roomFinsetGrid_card, Nat.mul_comm H W]
    exact hcount

theorem generated_maze_perfect_witness :
    (∀ q, isRoomCell 1 1 q → q ∈ ({(1, 2), (1, 0), (1, 1)} : Finset Pos)) ∧
    (({(1, 2), (1, 0), (1, 1)} : Finset Pos).filter (isRoomCell 1 1)).card = 1 * 1 ∧
    (({(1, 2), (1, 0), (1, 1)} : Finset Pos).filter (isPassageCell 1 1)).card + 1 =
      (({(1, 2), (1, 0), (1, 1)} : Finset Pos).filter (isRoomCell 1 1)).card :=
  generated_maze_perfect 1 1 1 rngIdentity sampleTake 5
    ⟨{(1, 2), (1, 0), (1, 1)}, [(1, 2)]⟩ (le_refl 1) (le_refl 1)
    (fun _ => List.Perm.refl _) sampleTake_spec rfl

/-! ## C6: the perimeter is wall except entrance and exits -/

/-- C6: after `generate_maze` completes, a cell on the outer perimeter is
Open exactly when it is the Start coordinate `(1, 0)` or one of the
carved exits; every other perimeter cell is Wall (the carver only ever
writes strictly interior room and passage cells). -/
theorem perimeter_walls (W H numExits : ℕ) (rng : ℕ → List Pos)
    (sample : List Pos → ℕ → List Pos) (fuel : ℕ) (m : MazeOut)
    (hW : 1 ≤ W) (hH : 1 ≤ H)
    (hrng : ∀ n, (rng n).Perm dfsDirections)
    (hgen : generateMaze W H numExits rng sample fuel = .ok m) :
    ∀ p, onPerimeter W H p → (p ∈ m.grid ↔ p = ((1 : ℤ), (0 : ℤ)) ∨ p ∈ m.exits) := by
  obtain ⟨s2, hdfs, hexits, hmem⟩ := generate_parts hgen
  obtain ⟨clean2, -, -⟩ := dfs_run_spec W H hW hH rng hrng fuel s2 hdfs
  intro p hper
  obtain ⟨hb1, hb2, hb3, hb4, hb5⟩ := hper
  rw [hmem p, Finset.mem_insert]
  constructor
  · rintro ((rfl | hs) | hex)
    · exact Or.inl rfl
    · exfalso
      rcases clean2.gridClass p hs with hq | hq
      · obtain ⟨h1, h2, h3, h4, h5, h6⟩ := hq
        omega
      · obtain ⟨h1, h2, h3, h4, h5⟩ := hq
        omega
    · exact Or.inr hex
  · rintro (rfl | hex)
    · exact Or.inl (Or.inl rfl)
    · exact Or.inr hex

theorem perimeter_walls_witness :
    ((0 : ℤ), (0 : ℤ)) ∈ ({(1, 2), (1, 0), (1, 1)} : Finset Pos) ↔
      ((0 : ℤ), (0 : ℤ)) = ((1 : ℤ), (0 : ℤ)) ∨
        ((0 : ℤ), (0 : ℤ)) ∈ ([(1, 2)] : List Pos) :=
  perimeter_walls 1 1 1 rngIdentity sampleTake 5 ⟨{(1, 2), (1, 0), (1, 1)}, [(1, 2)]⟩
    (le_refl 1) (le_refl 1) (fun _ => List.Perm.refl _) rfl
    ((0 : ℤ), (0 : ℤ)) (by decide)

/-- Reverse membership: each eligible boundary coordinate appears in the
scan. -/
theorem possibleExits_iff (W H : ℕ) (hW : 1 ≤ W) (hH : 1 ≤ H) (g : Finset Pos)
    (e : Pos) : e ∈ possibleExits W H g ↔ eligibleExitCell W H g e := by
  constructor
  · intro h
    rcases possibleExits_cases h with ⟨j, hj, rfl, ho⟩ | ⟨j, hj, rfl, ho⟩ |
      ⟨i, hi, rfl, ho⟩ | ⟨i, hi, rfl, ho⟩
    · refine Or.inr (Or.inl ⟨rfl, ?_, ho⟩)
      unfold isRoomCell
      refine ⟨?_, ?_, ?_, ?_, ?_, ?_⟩ <;> norm_num <;> push_cast <;> omega
    · refine Or.inl ⟨rfl, ?_, ho⟩
      unfold isRoomCell
      refine ⟨?_, ?_, ?_, ?_, ?_, ?_⟩ <;> norm_num <;> push_cast <;> omega
    · refine Or.inr (Or.inr (Or.inr ⟨rfl, ?_, ho⟩))
      unfold isRoomCell
      refine ⟨?_, ?_, ?_, ?_, ?_, ?_⟩ <;> norm_num <;> push_cast <;> omega
    · refine Or.inr (Or.inr (Or.inl ⟨rfl, ?_, ho⟩))
      unfold isRoomCell
      refine ⟨?_, ?_, ?_, ?_, ?_, ?_⟩ <;> norm_num <;> push_cast <;> omega
  · intro h
    rcases h with ⟨h1, hroom, ho⟩ | ⟨h1, hroom, ho⟩ | ⟨h1, hroom, ho⟩ | ⟨h1, hroom, ho⟩
    · obtain ⟨hp1, -, hp3, hp4, -, -⟩ := hroom
      dsimp only at hp1 hp3 hp4
      obtain ⟨j, hjH, hje⟩ : ∃ j : ℕ, j < H ∧ e.1 = 2 * (j : ℤ) + 1 :=
        ⟨((e.1 - 1) / 2).toNat, by omega, by omega⟩
      have he : e = ((2 * (j : ℤ) + 1 : ℤ), 0) := by
        rw [Prod.ext_iff]
        exact ⟨hje, h1⟩
      rw [hje] at ho
      rw [he]
      unfold possibleExits edgeScanLR
      rw [List.mem_append]
      left
      rw [List.mem_flatMap]
      refine ⟨j, List.mem_range.mpr hjH, ?_⟩
      dsimp only
      rw [List.mem_append, if_pos ho]
      right
      simp
    · obtain ⟨hp1, -, hp3, hp4, -, -⟩ := hroom
      dsimp only at hp1 hp3 hp4
      obtain ⟨j, hjH, hje⟩ : ∃ j : ℕ, j < H ∧ e.1 = 2 * (j : ℤ) + 1 :=
        ⟨((e.1 - 1) / 2).toNat, by omega, by omega⟩
      have he : e = ((2 * (j : ℤ) + 1 : ℤ), 2 * (W : ℤ)) := by
        rw [Prod.ext_iff]
        exact ⟨hje, h1⟩
      rw [hje] at ho
      rw [he]
      unfold possibleExits edgeScanLR
      rw [List.mem_append]
      left
      rw [List.mem_flatMap]
      refine ⟨j, List.mem_range.mpr hjH, ?_⟩
      dsimp only
      rw [List.mem_append, if_pos ho]
      left
      simp
    · obtain ⟨-, hp2, -, -, hp5, hp6⟩ := hroom
      dsimp only at hp2 hp5 hp6
      obtain ⟨i, hiW, hie⟩ : ∃ i : ℕ, i < W ∧ e.2 = 2 * (i : ℤ) + 1 :=
        ⟨((e.2 - 1) / 2).toNat, by omega, by omega⟩
      have he : e = (0, (2 * (i : ℤ) + 1 : ℤ)) := by
        rw [Prod.ext_iff]
        exact ⟨h1, hie⟩
      rw [hie] at ho
      rw [he]
      unfold possibleExits edgeScanTB
      rw [List.mem_append]
      right
      rw [List.mem_flatMap]
      refine ⟨i, List.mem_range.mpr hiW, ?_⟩
      dsimp only
      rw [List.mem_append, if_pos ho]
      right
      simp
    · obtain ⟨-, hp2, -, -, hp5, hp6⟩ := hroom
      dsimp only at hp2 hp5 hp6
      obtain ⟨i, hiW, hie⟩ : ∃ i : ℕ, i < W ∧ e.2 = 2 * (i : ℤ) + 1 :=
        ⟨((e.2 - 1) / 2).toNat, by omega, by omega⟩
      have he : e = (2 * (H : ℤ), (2 * (i : ℤ) + 1 : ℤ)) := by
        rw [Prod.ext_iff]
        exact ⟨h1, hie⟩
      rw [hie] at ho
      rw [he]
      unfold possibleExits edgeScanTB
      rw [List.mem_append]
      right
      rw [List.mem_flatMap]
      refine ⟨i, List.mem_range.mpr hiW, ?_⟩
      dsimp only
      rw [List.mem_append, if_pos ho]
      left
      simp

theorem eligible_perimeter {W H : ℕ} {g : Finset Pos} {e : Pos}
    (h : eligibleExitCell W H g e) : onPerimeter W H e := by
  unfold onPerimeter
  rcases h with ⟨h1, hr, -⟩ | ⟨h1, hr, -⟩ | ⟨h1, hr, -⟩ | ⟨h1, hr, -⟩ <;>
    · obtain ⟨hq1, hq2, hq3, hq4, hq5, hq6⟩ := hr
      dsimp only at hq1 hq2 hq3 hq4 hq5 hq6
      refine ⟨?_, ?_, ?_, ?_, ?_⟩ <;> omega

/-- All cells of the `(2H+1) × (2W+1)` grid. -/
def gridCells (W H : ℕ) : Finset Pos :=
  Finset.Icc (0 : ℤ) (2 * (H : ℤ)) ×ˢ Finset.Icc (0 : ℤ) (2 * (W : ℤ))

theorem eligible_mem_cells {W H : ℕ} {g : Finset Pos} {e : Pos}
    (h : eligibleExitCell W H g e) : e ∈ gridCells W H := by
  obtain ⟨ha, hb, hc, hd, -⟩ := eligible_perimeter h
  unfold gridCells
  rw [Finset.mem_product, Finset.mem_Icc, Finset.mem_Icc]
  exact ⟨⟨ha, hb⟩, hc, hd⟩

theorem eligible_stable {W H : ℕ} {g1 g2 : Finset Pos}
    (hst : ∀ q, isRoomCell W H q → (q ∈ g1 ↔ q ∈ g2)) (e : Pos) :
    eligibleExitCell W H g1 e ↔ eligibleExitCell W H g2 e := by
  unfold eligibleExitCell
  constructor
  · rintro (⟨h1, h2, h3⟩ | ⟨h1, h2, h3⟩ | ⟨h1, h2, h3⟩ | ⟨h1, h2, h3⟩)
    · exact Or.inl ⟨h1, h2, (hst _ h2).mp h3⟩
    · exact Or.inr (Or.inl ⟨h1, h2, (hst _ h2).mp h3⟩)
    · exact Or.inr (Or.inr (Or.inl ⟨h1, h2, (hst _ h2).mp h3⟩))
    · exact Or.inr (Or.inr (Or.inr ⟨h1, h2, (hst _ h2).mp h3⟩))
  · rintro (⟨h1, h2, h3⟩ | ⟨h1, h2, h3⟩ | ⟨h1, h2, h3⟩ | ⟨h1, h2, h3⟩)
    · exact Or.inl ⟨h1, h2, (hst _ h2).mpr h3⟩
    · exact Or.inr (Or.inl ⟨h1, h2, (hst _ h2).mpr h3⟩)
    · exact Or.inr (Or.inr (Or.inl ⟨h1, h2, (hst _ h2).mpr h3⟩))
    · exact Or.inr (Or.inr (Or.inr ⟨h1, h2, (hst _ h2).mpr h3⟩))

/-! ## C3: exit selection -/

/-- C3: after exit selection, `len(ExitList) = min(num_exits, number of
eligible boundary candidates)` (candidates: boundary coordinates whose
one-step-inward neighbour room is Open), and every selected exit is
distinct, lies on the outer perimeter, and has its one-step-inward room
Open. -/
theorem exit_selection_spec (W H numExits : ℕ) (rng : ℕ → List Pos)
    (sample : List Pos → ℕ → List Pos) (fuel : ℕ) (m : MazeOut)
    (hW : 1 ≤ W) (hH : 1 ≤ H)
    (hrng : ∀ n, (rng n).Perm dfsDirections)
    (hsample : SampleSpec sample)
    (hgen : generateMaze W H numExits rng sample fuel = .ok m) :
    m.exits.length =
      min numExits ((gridCells W H).filter (eligibleExitCell W H m.grid)).card ∧
    m.exits.Nodup ∧
    ∀ e ∈ m.exits, onPerimeter W H e ∧ eligibleExitCell W H m.grid e := by
  obtain ⟨s2, hdfs, hexits, hmem⟩ := generate_parts hgen
  have hstab : ∀ q, isRoomCell W H q →
      (q ∈ insert ((1 : ℤ), (0 : ℤ)) s2.grid ↔ q ∈ m.grid) := by
    intro q hq
    rw [hmem q]
    constructor
    · exact Or.inl
    · rintro (h | hex)
      · exact h
      · exfalso
        have hepool : q ∈ possibleExits W H (insert ((1 : ℤ), (0 : ℤ)) s2.grid) := by
          rw [hexits] at hex
          exact (hsample _ _).1.subset hex
        exact (boundary_not_room_passage (possibleExits_boundary hepool)).1 hq
  have hiff : ∀ e, e ∈ possibleExits W H (insert ((1 : ℤ), (0 : ℤ)) s2.grid) ↔
      eligibleExitCell W H m.grid e :=
    fun e => (possibleExits_iff W H hW hH _ e).trans (eligible_stable hstab e)
  have hnodup := possibleExits_nodup W H hW hH (insert ((1 : ℤ), (0 : ℤ)) s2.grid)
  have hlen : (possibleExits W H (insert ((1 : ℤ), (0 : ℤ)) s2.grid)).length =
      ((gridCells W H).filter (eligibleExitCell W H m.grid)).card := by
    rw [← List.toFinset_card_of_nodup hnodup]
    congr 1
    ext e
    rw [List.mem_toFinset, hiff e, Finset.mem_filter]
    exact ⟨fun h => ⟨eligible_mem_cells h, h⟩, fun h => h.2⟩
  have hslen := (hsample (possibleExits W H (insert ((1 : ℤ), (0 : ℤ)) s2.grid))
    (min numExits (possibleExits W H (insert ((1 : ℤ), (0 : ℤ)) s2.grid)).length)).2
  refine ⟨?_, ?_, ?_⟩
  · rw [hexits, hslen, ← hlen]
    omega
  · rw [hexits]
    exact subperm_nodup (hsample _ _).1 hnodup
  · intro e he
    have hepool : e ∈ possibleExits W H (insert ((1 : ℤ), (0 : ℤ)) s2.grid) := by
      rw [hexits] at he
      exact (hsample _ _).1.subset he
    have helig := (hiff e).mp hepool
    exact ⟨eligible_perimeter helig, helig⟩

theorem exit_selection_spec_witness :
    ([((1 : ℤ), (2 : ℤ))] : List Pos).length =
      min 1 ((gridCells 1 1).filter
        (eligibleExitCell 1 1 ({(1, 2), (1, 0), (1, 1)} : Finset Pos))).card ∧
    ([((1 : ℤ), (2 : ℤ))] : List Pos).Nodup ∧
    ∀ e ∈ ([((1 : ℤ), (2 : ℤ))] : List Pos), onPerimeter 1 1 e ∧
      eligibleExitCell 1 1 ({(1, 2), (1, 0), (1, 1)} : Finset Pos) e :=
  exit_selection_spec 1 1 1 rngIdentity sampleTake 5
    ⟨{(1, 2), (1, 0), (1, 1)}, [(1, 2)]⟩ (le_refl 1) (le_refl 1)
    (fun _ => List.Perm.refl _) sampleTake_spec rfl

/-! ## C8: carving terminates -/

/-- Termination specification of `_dfs` at a fuel level: fuel at least
the number of unvisited rooms suffices for a successful (error-free)
run. -/
def DfsTerm (W H : ℕ) (rng : ℕ → List Pos) (fuel : ℕ) : Prop :=
  ∀ x y s, DfsPre W H x y s →
    (roomFinsetXY W H \ s.visited).card ≤ fuel →
    ∃ s2, dfsF rng (2 * (H : ℤ) + 1) (2 * (W : ℤ) + 1) fuel x y s = .ok s2

theorem room_setCell {W H : ℕ} {x y : ℤ} (g : Finset Pos)
    (hroom : isRoomCell W H (y, x)) :
    setCell (2 * (H : ℤ) + 1) (2 * (W : ℤ) + 1) g (y, x) = some (insert (y, x) g) := by
  obtain ⟨h1, h2, h3, h4, h5, h6⟩ := hroom
  unfold setCell
  rw [if_pos]
  exact ⟨by omega, by omega, by omega, by omega⟩

theorem passage_setCell {W H : ℕ} {p : Pos} (g : Finset Pos)
    (hpass : isPassageCell W H p) :
    setCell (2 * (H : ℤ) + 1) (2 * (W : ℤ) + 1) g p = some (insert p g) := by
  obtain ⟨h1, h2, h3, h4, h5⟩ := hpass
  unfold setCell
  rw [if_pos]
  exact ⟨by omega, by omega, by omega, by omega⟩

/-- Each room visited at most once: the unvisited-room count strictly
decreases into every recursive call, so fuel `≥ #unvisited rooms` never
runs out, and every write is in bounds — the direction loop never
errors. -/
theorem goAux_term (W H : ℕ) (rng : ℕ → List Pos)
    (hrng : ∀ n, (rng n).Perm dfsDirections) (fuel : ℕ)
    (hterm : DfsTerm W H rng fuel) :
    ∀ (dirs : List Pos) (x y : ℤ) (s : GenState),
      (∀ d ∈ dirs, d ∈ dfsDirections) →
      DfsClean W H s →
      (x, y) ∈ s.visited →
      isRoomCell W H (y, x) →
      (s.grid.filter (isPassageCell W H)).card + 1 = s.visited.card →
      (roomFinsetXY W H \ s.visited).card ≤ fuel →
      ∃ s2, goAux (dfsF rng (2 * (H : ℤ) + 1) (2 * (W : ℤ) + 1) fuel)
        (2 * (H : ℤ) + 1) (2 * (W : ℤ) + 1) x y dirs s = .ok s2 := by
  intro dirs
  induction dirs with
  | nil =>
    intro x y s _ _ _ _ _ _
    exact ⟨s, rfl⟩
  | cons d ds ih =>
    intro x y s hdirs hclean hxy hroom hcount hfuel
    have hd4 : d ∈ dfsDirections := hdirs d (List.mem_cons_self _ _)
    by_cases hc : 0 < x + d.1 ∧ x + d.1 < 2 * (W : ℤ) + 1 - 1 ∧ 0 < y + d.2 ∧
        y + d.2 < 2 * (H : ℤ) + 1 - 1 ∧ (x + d.1, y + d.2) ∉ s.visited
    · obtain ⟨hc1, hc2, hc3, hc4, hc5⟩ := hc
      have hstrict : inStrictXY W H (x + d.1, y + d.2) := by
        unfold inStrictXY
        dsimp only
        omega
      have hd' : ((d.1, d.2) : Pos) ∈ dfsDirections := by
        rw [Prod.mk.eta]
        exact hd4
      obtain ⟨hpass, hfresh, hpre2⟩ := carve_passage W H x y d.1 d.2 s hd'
        hclean hxy hroom hstrict hc5 hcount
      have htarget : (x + d.1, y + d.2) ∈ roomFinsetXY W H := by
        rw [mem_roomFinsetXY]
        exact hpre2.2.2.2.2.2.1
      have hfuel2 : (roomFinsetXY W H \ s.visited).card ≤ fuel := hfuel
      obtain ⟨s3, hrec⟩ := hterm (x + d.1) (y + d.2)
        ⟨insert (y + d.2 / 2, x + d.1 / 2) s.grid, s.visited, s.rngIndex⟩ hpre2 hfuel2
      obtain ⟨⟨clean3, vsub3, gsub3, count3, -⟩, -⟩ :=
        dfsF_spec_all W H rng hrng fuel (x + d.1) (y + d.2) _ s3 hpre2 hrec
      obtain ⟨s2, htail⟩ := ih x y s3
        (fun u hu => hdirs u (List.mem_cons_of_mem _ hu))
        clean3 (vsub3 hxy) hroom count3
        (le_trans (Finset.card_le_card (Finset.sdiff_subset_sdiff
          (Finset.Subset.refl _) vsub3)) hfuel)
      refine ⟨s2, ?_⟩
      rw [goAux, if_pos ⟨hc1, hc2, hc3, hc4, hc5⟩, passage_setCell s.grid hpass]
      simp only [hrec]
      exact htail
    · obtain ⟨s2, htail⟩ := ih x y s
        (fun u hu => hdirs u (List.mem_cons_of_mem _ hu))
        hclean hxy hroom hcount hfuel
      refine ⟨s2, ?_⟩
      rw [goAux, if_neg hc]
      exact htail

theorem dfsF_term (W H : ℕ) (rng : ℕ → List Pos)
    (hrng : ∀ n, (rng n).Perm dfsDirections) :
    ∀ fuel, DfsTerm W H rng fuel := by
  intro fuel
  induction fuel with
  | zero =>
    intro x y s hpre hfuel
    exfalso
    have hmem : (x, y) ∈ roomFinsetXY W H \ s.visited := by
      rw [Finset.mem_sdiff, mem_roomFinsetXY]
      exact ⟨hpre.2.2.2.2.2.1, hpre.2.2.2.2.1⟩
    have := Finset.card_pos.mpr ⟨(x, y), hmem⟩
    omega
  | succ fuel ih =>
    intro x y s hpre hfuel
    have hroom : isRoomCell W H (y, x) := hpre.2.2.2.2.2.1
    obtain ⟨clean1, count1⟩ := visit_room W H x y s (s.rngIndex + 1) hpre
    have hdirs : ∀ d ∈ rng s.rngIndex, d ∈ dfsDirections :=
      fun d hd => (hrng s.rngIndex).mem_iff.mp hd
    have hsdiff : (roomFinsetXY W H \ insert (x, y) s.visited).card ≤ fuel := by
      have hmm : (x, y) ∈ roomFinsetXY W H \ s.visited := by
        rw [Finset.mem_sdiff, mem_roomFinsetXY]
        exact ⟨hroom, hpre.2.2.2.2.1⟩
      have he : roomFinsetXY W H \ insert (x, y) s.visited =
          (roomFinsetXY W H \ s.visited).erase (x, y) := by
        ext q
        rw [Finset.mem_sdiff, Finset.mem_erase, Finset.mem_sdiff, Finset.mem_insert]
        constructor
        · rintro ⟨h1, h2⟩
          exact ⟨fun hq => h2 (Or.inl hq), h1, fun hq => h2 (Or.inr hq)⟩
        · rintro ⟨h1, h2, h3⟩
          refine ⟨h2, ?_⟩
          rintro (hq | hq)
          · exact h1 hq
          · exact h3 hq
      rw [he, Finset.card_erase_of_mem hmm]
      omega
    obtain ⟨s2, hgo⟩ := goAux_term W H rng hrng fuel ih (rng s.rngIndex) x y
      ⟨insert (y, x) s.grid, insert (x, y) s.visited, s.rngIndex + 1⟩
      hdirs clean1 (Finset.mem_insert_self _ _) hroom count1 hsdiff
    refine ⟨s2, ?_⟩
    rw [dfsF, room_setCell s.grid hroom]
    exact hgo

theorem carveCells_total (rows cols : ℤ) :
    ∀ (l : List Pos) (g : Finset Pos),
      (∀ p ∈ l, 0 ≤ p.1 ∧ p.1 < rows ∧ 0 ≤ p.2 ∧ p.2 < cols) →
      ∃ g2, carveCells rows cols l g = some g2 := by
  intro l
  induction l with
  | nil =>
    intro g _
    exact ⟨g, rfl⟩
  | cons p ps ih =>
    intro g hb
    have hp := hb p (List.mem_cons_self _ _)
    obtain ⟨g2, h2⟩ := ih (insert p g) (fun q hq => hb q (List.mem_cons_of_mem _ hq))
    have hset : setCell rows cols g p = some (insert p g) := by
      unfold setCell
      rw [if_pos hp]
    refine ⟨g2, ?_⟩
    rw [carveCells]
    simp only [hset]
    exact h2

/-- C8: for every `W, H ≥ 1` and every outcome of the random shuffling,
the depth-first carving (and with it the whole of `generate_maze`)
terminates: each room is visited at most once, so fuel `W*H` (the number
of rooms) suffices, and no error occurs. -/
theorem generation_terminates (W H numExits : ℕ) (rng : ℕ → List Pos)
    (sample : List Pos → ℕ → List Pos) (fuel : ℕ)
    (hW : 1 ≤ W) (hH : 1 ≤ H)
    (hrng : ∀ n, (rng n).Perm dfsDirections)
    (hsample : SampleSpec sample)
    (hfuel : W * H ≤ fuel) :
    ∃ m, generateMaze W H numExits rng sample fuel = .ok m := by
  obtain ⟨s2, hdfs⟩ := dfsF_term W H rng hrng fuel 1 1 ⟨∅, ∅, 0⟩
    (dfsPre_init W H hW hH)
    (by rw [Finset.sdiff_empty, roomFinsetXY_card]; exact hfuel)
  have hent : setCell (2 * (H : ℤ) + 1) (2 * (W : ℤ) + 1) s2.grid ((1 : ℤ), (0 : ℤ)) =
      some (insert ((1 : ℤ), (0 : ℤ)) s2.grid) := by
    unfold setCell
    rw [if_pos]
    refine ⟨?_, ?_, ?_, ?_⟩ <;> norm_num <;> push_cast <;> omega
  have hbounds : ∀ p ∈ sample (possibleExits W H (insert ((1 : ℤ), (0 : ℤ)) s2.grid))
      (min numExits (possibleExits W H (insert ((1 : ℤ), (0 : ℤ)) s2.grid)).length),
      0 ≤ p.1 ∧ p.1 < 2 * (H : ℤ) + 1 ∧ 0 ≤ p.2 ∧ p.2 < 2 * (W : ℤ) + 1 := by
    intro p hp
    have hpool : p ∈ possibleExits W H (insert ((1 : ℤ), (0 : ℤ)) s2.grid) :=
      (hsample _ _).1.subset hp
    have helig := (possibleExits_iff W H hW hH _ p).mp hpool
    obtain ⟨ha, hb2, hc, hd, -⟩ := eligible_perimeter helig
    exact ⟨ha, by omega, hc, by omega⟩
  obtain ⟨g2, hcarve⟩ := carveCells_total (2 * (H : ℤ) + 1) (2 * (W : ℤ) + 1) _
    (insert ((1 : ℤ), (0 : ℤ)) s2.grid) hbounds
  refine ⟨⟨g2, sample (possibleExits W H (insert ((1 : ℤ), (0 : ℤ)) s2.grid))
    (min numExits (possibleExits W H (insert ((1 : ℤ), (0 : ℤ)) s2.grid)).length)⟩, ?_⟩
  unfold generateMaze
  dsimp only
  simp only [hdfs, hent, hcarve]

theorem generation_terminates_witness :
    ∃ m, generateMaze 1 1 1 rngIdentity sampleTake 5 = .ok m :=
  generation_terminates 1 1 1 rngIdentity sampleTake 5 (le_refl 1) (le_refl 1)
    (fun _ => List.Perm.refl _) sampleTake_spec (by omega)

/-- A `random.sample` outcome that selects the Start boundary cell first
whenever it is in the pool (a legal sampling outcome). -/
def samplePrefStart : List Pos → ℕ → List Pos := fun l k =>
  if ((1 : ℤ), (0 : ℤ)) ∈ l then
    (((1 : ℤ), (0 : ℤ)) :: @List.erase Pos instBEqOfDecidableEq l ((1 : ℤ), (0 : ℤ))).take k
  else l.take k

theorem samplePrefStart_spec : SampleSpec samplePrefStart := by
  intro l k
  unfold samplePrefStart
  split
  · rename_i hmem
    have hperm : l.Perm (((1 : ℤ), (0 : ℤ)) ::
        @List.erase Pos instBEqOfDecidableEq l ((1 : ℤ), (0 : ℤ))) :=
      List.perm_cons_erase hmem
    constructor
    · exact ((List.take_sublist _ _).subperm).trans hperm.symm.subperm
    · rw [List.length_take, List.length_cons]
      have hlen := hperm.length_eq
      rw [List.length_cons] at hlen
      omega
  · exact ⟨(List.take_sublist _ _).subperm, by rw [List.length_take]⟩

/-! ## C10: the Start cell is always an exit candidate -/

/-- C10: for `W, H ≥ 1` and every shuffle outcome, the candidate pool
scanned by `_generate_exits` contains the Start coordinate `(1, 0)`
(room `(1, 1)` is always Open, so the left-edge scan at row 1 fires);
consequently a sampling outcome may select `(1, 0)` as an exit — with
the `samplePrefStart` oracle and `num_exits ≥ 1` it does — and the A*
search from Start to that exit returns the single-cell path `[(1, 0)]`. -/
theorem start_exit_coincidence (W H numExits : ℕ) (rng : ℕ → List Pos)
    (genFuel pathFuel : ℕ)
    (hW : 1 ≤ W) (hH : 1 ≤ H)
    (hrng : ∀ n, (rng n).Perm dfsDirections)
    (hn : 1 ≤ numExits) (hpf : 1 ≤ pathFuel) :
    (∀ s2, dfsF rng (2 * (H : ℤ) + 1) (2 * (W : ℤ) + 1) genFuel 1 1 ⟨∅, ∅, 0⟩ = .ok s2 →
      ((1 : ℤ), (0 : ℤ)) ∈ possibleExits W H (insert ((1 : ℤ), (0 : ℤ)) s2.grid)) ∧
    (∀ m, generateMaze W H numExits rng samplePrefStart genFuel = .ok m →
      ((1 : ℤ), (0 : ℤ)) ∈ m.exits) ∧
    (∀ g : Grid, astar g pathFuel startPos startPos = some [startPos]) := by
  have hroom11 : isRoomCell W H ((1 : ℤ), (1 : ℤ)) := by
    unfold isRoomCell
    refine ⟨?_, ?_, ?_, ?_, ?_, ?_⟩ <;> norm_num <;> push_cast <;> omega
  have hpool : ∀ s2, dfsF rng (2 * (H : ℤ) + 1) (2 * (W : ℤ) + 1) genFuel 1 1
      ⟨∅, ∅, 0⟩ = .ok s2 →
      ((1 : ℤ), (0 : ℤ)) ∈ possibleExits W H (insert ((1 : ℤ), (0 : ℤ)) s2.grid) := by
    intro s2 hdfs
    obtain ⟨clean2, hveq, -⟩ := dfs_run_spec W H hW hH rng hrng genFuel s2 hdfs
    have h11 : ((1 : ℤ), (1 : ℤ)) ∈ s2.grid := by
      rw [clean2.openRoom _ hroom11, hveq, mem_roomFinsetXY]
      exact hroom11
    refine (possibleExits_iff W H hW hH _ _).mpr (Or.inl ⟨rfl, hroom11, ?_⟩)
    exact Finset.mem_insert_of_mem h11
  refine ⟨hpool, ?_, fun g => astar_self g pathFuel startPos hpf⟩
  intro m hgen
  obtain ⟨s2, hdfs, hexits, -⟩ := generate_parts hgen
  have hp := hpool s2 hdfs
  have hplen : 1 ≤ (possibleExits W H (insert ((1 : ℤ), (0 : ℤ)) s2.grid)).length :=
    List.length_pos.mpr (fun h0 => by rw [h0] at hp; cases hp)
  rw [hexits]
  unfold samplePrefStart
  rw [if_pos hp]
  obtain ⟨k, hk⟩ : ∃ k, min numExits
      (possibleExits W H (insert ((1 : ℤ), (0 : ℤ)) s2.grid)).length = k + 1 := by
    refine ⟨min numExits (possibleExits W H (insert ((1 : ℤ), (0 : ℤ)) s2.grid)).length - 1, ?_⟩
    omega
  rw [hk, List.take_succ_cons]
  exact List.mem_cons_self _ _

theorem start_exit_coincidence_witness :
    (∀ s2, dfsF rngIdentity (2 * ((1 : ℕ) : ℤ) + 1) (2 * ((1 : ℕ) : ℤ) + 1) 5 1 1
        ⟨∅, ∅, 0⟩ = .ok s2 →
      ((1 : ℤ), (0 : ℤ)) ∈ possibleExits 1 1 (insert ((1 : ℤ), (0 : ℤ)) s2.grid)) ∧
    (∀ m, generateMaze 1 1 1 rngIdentity samplePrefStart 5 = .ok m →
      ((1 : ℤ), (0 : ℤ)) ∈ m.exits) ∧
    (∀ g : Grid, astar g 5 startPos startPos = some [startPos]) :=
  start_exit_coincidence 1 1 1 rngIdentity 5 5 (le_refl 1) (le_refl 1)
    (fun _ => List.Perm.refl _) (le_refl 1) (by omega)
